import Mathlib

/-!
Verification of `gammapy/irf/irf_stack.py` (class `IRFStacker`).

Shallow embedding conventions:

* numpy floating-point values are modelled by `FV`: an exact rational
  (ignoring rounding, which no claim here depends on) together with the IEEE
  special values `nan`, `+inf` and `-inf`, whose propagation through the
  arithmetic used by the code (`+`, `*`, `/`, `np.nan_to_num`) is modelled
  exactly.  Signed zero is not modelled (it is irrelevant to the code under
  study: denominators are sums that are produced as plain `0`).
* numpy 1-d arrays are `List FV`, 2-d arrays are `List (List FV)` (row-major).
  In-place `+=` and elementwise `*`, `/` with their broadcasting rules (shapes
  must agree, or one of the operands has extent 1 on a dimension) are modelled
  by `Except`-valued operations; an incompatible broadcast is numpy's
  `ValueError`, modelled as `NpError.valueError`.  Indexing an empty Python
  list is `NpError.indexError`.
* physical units (`cm2`, `s`) are carried implicitly; `Quantity` arithmetic on
  magnitudes is ordinary arithmetic and `.to(cm2)` is the identity.
-/

/-- A numpy floating-point scalar: exact rational value or an IEEE special
value (`nan`, `inf`, `ninf`). -/
inductive FV where
  | fin (q : ℚ) : FV
  | nan : FV
  | inf : FV
  | ninf : FV
deriving DecidableEq, Repr

instance : Inhabited FV := ⟨FV.fin 0⟩

/-- IEEE addition on `FV` (exact on finite values). -/
def FV.add : FV → FV → FV
  | FV.fin a, FV.fin b => FV.fin (a + b)
  | FV.nan, _ => FV.nan
  | _, FV.nan => FV.nan
  | FV.inf, FV.ninf => FV.nan
  | FV.ninf, FV.inf => FV.nan
  | FV.inf, _ => FV.inf
  | _, FV.inf => FV.inf
  | FV.ninf, _ => FV.ninf
  | _, FV.ninf => FV.ninf

/-- IEEE multiplication on `FV` (exact on finite values); `0 * inf = nan`. -/
def FV.mul : FV → FV → FV
  | FV.fin a, FV.fin b => FV.fin (a * b)
  | FV.nan, _ => FV.nan
  | _, FV.nan => FV.nan
  | FV.fin a, FV.inf => if 0 < a then FV.inf else if a < 0 then FV.ninf else FV.nan
  | FV.inf, FV.fin a => if 0 < a then FV.inf else if a < 0 then FV.ninf else FV.nan
  | FV.fin a, FV.ninf => if 0 < a then FV.ninf else if a < 0 then FV.inf else FV.nan
  | FV.ninf, FV.fin a => if 0 < a then FV.ninf else if a < 0 then FV.inf else FV.nan
  | FV.inf, FV.inf => FV.inf
  | FV.inf, FV.ninf => FV.ninf
  | FV.ninf, FV.inf => FV.ninf
  | FV.ninf, FV.ninf => FV.inf

/-- IEEE division on `FV`: `0/0 = nan`, `x/0 = ±inf` for `x ≠ 0` (signed
zero is not modelled, so the sign of the infinity follows the numerator). -/
def FV.div : FV → FV → FV
  | FV.fin a, FV.fin b =>
      if b = 0 then (if a = 0 then FV.nan else if 0 < a then FV.inf else FV.ninf)
      else FV.fin (a / b)
  | FV.nan, _ => FV.nan
  | _, FV.nan => FV.nan
  | FV.fin _, FV.inf => FV.fin 0
  | FV.fin _, FV.ninf => FV.fin 0
  | FV.inf, FV.fin b => if b < 0 then FV.ninf else FV.inf
  | FV.ninf, FV.fin b => if b < 0 then FV.inf else FV.ninf
  | FV.inf, FV.inf => FV.nan
  | FV.inf, FV.ninf => FV.nan
  | FV.ninf, FV.inf => FV.nan
  | FV.ninf, FV.ninf => FV.nan

instance : Add FV := ⟨FV.add⟩
instance : Mul FV := ⟨FV.mul⟩
instance : Div FV := ⟨FV.div⟩

/-- The largest double-precision float, `numpy.finfo(float64).max`:
`(2 - 2^-52) * 2^1023`.  `np.nan_to_num` substitutes it for `+inf`. -/
def npMaxFloat : ℚ := (2 ^ 53 - 1) * 2 ^ 971

/-- Scalar behaviour of `np.nan_to_num`: `nan ↦ 0`, `±inf ↦ ±DBL_MAX`,
finite values unchanged. -/
def FV.nanToNum : FV → FV
  | FV.fin q => FV.fin q
  | FV.nan => FV.fin 0
  | FV.inf => FV.fin npMaxFloat
  | FV.ninf => FV.fin (-npMaxFloat)

/-- Whether an `FV` is a finite number (not `nan`, not `±inf`). -/
def FV.isFin : FV → Bool
  | FV.fin _ => true
  | _ => false

/-- The rational value of a finite `FV` (0 on the special values). -/
def FV.toQ : FV → ℚ
  | FV.fin q => q
  | _ => 0

/-- Whether an `FV` compares `≥ 0` in IEEE semantics (`nan ≥ 0` is false,
`+inf ≥ 0` is true). -/
def FV.isNonneg : FV → Bool
  | FV.fin q => decide (0 ≤ q)
  | FV.inf => true
  | _ => false

theorem FV.fin_add_fin (a b : ℚ) : FV.fin a + FV.fin b = FV.fin (a + b) := rfl

theorem FV.fin_mul_fin (a b : ℚ) : FV.fin a * FV.fin b = FV.fin (a * b) := rfl

theorem FV.fin_div_fin (a b : ℚ) (hb : b ≠ 0) : FV.fin a / FV.fin b = FV.fin (a / b) := by
  show FV.div (FV.fin a) (FV.fin b) = FV.fin (a / b)
  simp [FV.div, hb]

theorem FV.fin_div_zero_zero : FV.fin 0 / FV.fin 0 = FV.nan := rfl

theorem FV.toQ_fin (q : ℚ) : (FV.fin q).toQ = q := rfl

theorem FV.isFin_toQ {x : FV} (h : x.isFin = true) : FV.fin x.toQ = x := by
  cases x <;> simp_all [FV.isFin, FV.toQ]

/-! ### List index helpers (`getD`-based, proven by induction) -/

theorem getD_map_lt {α β : Type} (f : α → β) :
    ∀ (xs : List α) (n : ℕ), n < xs.length →
      ∀ (d : β) (d0 : α), (xs.map f).getD n d = f (xs.getD n d0)
  | [], n, h, _, _ => absurd h (Nat.not_lt_zero n)
  | _ :: _, 0, _, _, _ => rfl
  | _ :: xs, n + 1, h, d, d0 => getD_map_lt f xs n (Nat.lt_of_succ_lt_succ h) d d0

theorem getD_zipWith_lt {α β γ : Type} (f : α → β → γ) :
    ∀ (xs : List α) (ys : List β) (n : ℕ), n < xs.length → n < ys.length →
      ∀ (d : γ) (dx : α) (dy : β),
      (List.zipWith f xs ys).getD n d = f (xs.getD n dx) (ys.getD n dy)
  | [], _, n, h, _, _, _, _ => absurd h (Nat.not_lt_zero n)
  | _ :: _, [], n, _, h, _, _, _ => absurd h (Nat.not_lt_zero n)
  | _ :: _, _ :: _, 0, _, _, _, _, _ => rfl
  | _ :: xs, _ :: ys, n + 1, h1, h2, d, dx, dy =>
      getD_zipWith_lt f xs ys n (Nat.lt_of_succ_lt_succ h1) (Nat.lt_of_succ_lt_succ h2) d dx dy

theorem getD_replicate_lt {α : Type} (x : α) :
    ∀ (m n : ℕ), n < m → ∀ (d : α), (List.replicate m x).getD n d = x
  | 0, n, h, _ => absurd h (Nat.not_lt_zero n)
  | _ + 1, 0, _, _ => rfl
  | m + 1, n + 1, h, d => getD_replicate_lt x m n (Nat.lt_of_succ_lt_succ h) d

theorem getD_range_map_lt {α : Type} (f : ℕ → α) (n k : ℕ) (h : k < n) (d : α) :
    ((List.range n).map f).getD k d = f k := by
  have hk : k < ((List.range n).map f).length := by simpa using h
  rw [List.getD_eq_getElem _ _ hk, List.getElem_map]
  congr 1
  exact List.getElem_range _ _

theorem getD_ext {α : Type} (d : α) :
    ∀ (xs ys : List α), xs.length = ys.length →
      (∀ n, n < xs.length → xs.getD n d = ys.getD n d) → xs = ys
  | [], [], _, _ => rfl
  | [], _ :: _, h, _ => by simp at h
  | _ :: _, [], h, _ => by simp at h
  | x :: xs, y :: ys, h, he => by
      have hxy : x = y := he 0 (Nat.succ_pos _)
      have ht : xs = ys := getD_ext d xs ys (by simpa using h)
        (fun n hn => he (n + 1) (Nat.succ_lt_succ hn))
      rw [hxy, ht]

/-! ### numpy array operations -/

/-- Python/numpy run-time errors that the stacking code can raise:
`valueError` is numpy's broadcast-shape failure, `indexError` is Python's
out-of-range list indexing. -/
inductive NpError where
  | valueError : NpError
  | indexError : NpError
deriving DecidableEq, Repr

/-- In-place `a += b` on 1-d arrays: shapes must be equal, or `b` must have
extent 1 (which broadcasts); anything else is a `ValueError`.  (`a` of extent
1 cannot grow in place.) -/
def npAddV (a b : List FV) : Except NpError (List FV) :=
  if b.length = a.length then .ok (List.zipWith (· + ·) a b)
  else if b.length = 1 then .ok (a.map (· + b.getD 0 (FV.fin 0)))
  else .error NpError.valueError

/-- Elementwise binary operation of a 1-d array `a` with a 1-d array `b`
under numpy broadcasting (extent-1 dimensions stretch). -/
def npZipV (op : FV → FV → FV) (a b : List FV) : Except NpError (List FV) :=
  if b.length = a.length then .ok (List.zipWith op a b)
  else if b.length = 1 then .ok (a.map (op · (b.getD 0 (FV.fin 0))))
  else if a.length = 1 then .ok (b.map (op (a.getD 0 (FV.fin 0)) ·))
  else .error NpError.valueError

/-- Apply a fallible row operation to every row of a matrix. -/
def rowsOp (op : List FV → Except NpError (List FV)) :
    List (List FV) → Except NpError (List (List FV))
  | [] => .ok []
  | r :: rs =>
      match op r, rowsOp op rs with
      | .ok r2, .ok rs2 => .ok (r2 :: rs2)
      | .error e, _ => .error e
      | _, .error e => .error e

/-- Apply a fallible binary row operation to corresponding rows of two
matrices with the same number of rows. -/
def rowsOp2 (op : List FV → List FV → Except NpError (List FV)) :
    List (List FV) → List (List FV) → Except NpError (List (List FV))
  | [], [] => .ok []
  | a :: as_, b :: bs =>
      match op a b, rowsOp2 op as_ bs with
      | .ok r2, .ok rs2 => .ok (r2 :: rs2)
      | .error e, _ => .error e
      | _, .error e => .error e
  | _, _ => .error NpError.valueError

/-- In-place `A += B` on 2-d arrays, with numpy row broadcasting (`B` with a
single row stretches over all rows of `A`). -/
def npAddM (a b : List (List FV)) : Except NpError (List (List FV)) :=
  if b.length = a.length then rowsOp2 npAddV a b
  else if b.length = 1 then rowsOp (fun r => npAddV r (b.getD 0 [])) a
  else .error NpError.valueError

/-- `M * v` for a 2-d array and a 1-d array: the vector is broadcast across
the rows, acting elementwise inside each row. -/
def npMulMV (m : List (List FV)) (v : List FV) : Except NpError (List (List FV)) :=
  rowsOp (fun r => npZipV (· * ·) r v) m

/-- `M / v` for a 2-d array and a 1-d array, elementwise with the vector
broadcast across the rows. -/
def npDivMV (m : List (List FV)) (v : List FV) : Except NpError (List (List FV)) :=
  rowsOp (fun r => npZipV (· / ·) r v) m

/-- `np.sum` over a 1-d array. -/
def npSum (l : List FV) : FV := l.foldl (· + ·) (FV.fin 0)

/-- `np.nan_to_num` applied to every entry of a 2-d array. -/
def nanToNumM (m : List (List FV)) : List (List FV) := m.map (List.map FV.nanToNum)

/-- `ndarray.transpose()` on a (rectangular, row-major) 2-d array: entry
`(k, l)` of the result is entry `(l, k)` of the argument. -/
def mTranspose (m : List (List FV)) : List (List FV) :=
  (List.range (match m with | [] => 0 | r :: _ => r.length)).map
    (fun k => m.map (fun row => row.getD k (FV.fin 0)))

/-! ### Data model: effective-area tables and energy dispersions

Only `irf_stack.py` is in the sources; the `EffectiveAreaTable` and
`EnergyDispersion` classes it uses live elsewhere in the repository, so the
two accessor methods the stacker calls (`evaluate(fill_nan=True)` and
`pdf_in_safe_range`) are modelled from the spec. -/

/-- An effective-area curve: true-energy bin edges (the `energy` axis, so the
number of bins is `edges - 1`) and one area value (cm²) per bin. -/
structure EffectiveAreaTable where
  energy : List ℚ
  data : List FV
deriving DecidableEq, Repr

/-- Number of bins of a binning given by its list of edges
(`EnergyBounds.nbins` = number of edges minus one). -/
def nbinsOf (edges : List ℚ) : ℕ := edges.length - 1

/-- Modelled from the spec: `EffectiveAreaTable.evaluate` is not under
`src/`; per the spec's fill-on-read policy, with `fill_nan = true` it returns
the per-bin area values with every NaN entry replaced by 0. -/
def EffectiveAreaTable.evaluate (a : EffectiveAreaTable) (fill_nan : Bool) : List FV :=
  if fill_nan then a.data.map (fun x => if x = FV.nan then FV.fin 0 else x) else a.data

/-- An energy-dispersion matrix: true-energy bin edges, reconstructed-energy
bin edges, and the probability-density data indexed `[true bin][reco bin]`. -/
structure EnergyDispersion where
  e_true : List ℚ
  e_reco : List ℚ
  data : List (List FV)
deriving DecidableEq, Repr

/-- Whether reconstructed-energy bin `k` lies inside the safe range
`[lo, hi]`: both of its edges are between the two thresholds. -/
def safeBin (e_reco : List ℚ) (lo hi : ℚ) (k : ℕ) : Bool :=
  decide (lo ≤ e_reco.getD k 0) && decide (e_reco.getD (k + 1) 0 ≤ hi)

/-- Mask one row of the dispersion matrix: entries at reconstructed bins
outside the safe range become 0 (`k` is the index of the first entry). -/
def maskRow (e_reco : List ℚ) (lo hi : ℚ) : ℕ → List FV → List FV
  | _, [] => []
  | k, x :: xs =>
      (if safeBin e_reco lo hi k then x else FV.fin 0) :: maskRow e_reco lo hi (k + 1) xs

/-- Modelled from the spec: `EnergyDispersion.pdf_in_safe_range` is not under
`src/`; per the spec it returns the dispersion data with the contribution of
every reconstructed-energy bin outside `[lo, hi]` zeroed (threshold masking
only zeroes contributions, never changes bin edges). -/
def EnergyDispersion.pdf_in_safe_range (rmf : EnergyDispersion) (lo hi : ℚ) :
    List (List FV) :=
  rmf.data.map (maskRow rmf.e_reco lo hi 0)

/-! ### The stacker (`irf_stack.py`, class `IRFStacker`) -/

/-- The `IRFStacker` instance: the five input lists given to `__init__` and
the two result attributes, initially `None`. -/
structure IRFStacker where
  list_arf : List EffectiveAreaTable
  list_livetime : List FV
  list_rmf : List EnergyDispersion
  list_low_threshold : List ℚ
  list_high_threshold : List ℚ
  stacked_aeff : Option EffectiveAreaTable
  stacked_edisp : Option EnergyDispersion
deriving DecidableEq, Repr

/-- Construct an `IRFStacker` (`__init__`): stores the input lists and sets
both result attributes to `None`. -/
def IRFStacker.init (list_arf : List EffectiveAreaTable) (list_livetime : List FV)
    (list_rmf : List EnergyDispersion) (list_low_threshold list_high_threshold : List ℚ) :
    IRFStacker :=
  ⟨list_arf, list_livetime, list_rmf, list_low_threshold, list_high_threshold, none, none⟩

/-- The `for i, arf in enumerate(self.list_arf)` loop of `stack_aeff`:
`aefft += arf.evaluate(fill_nan=True) * list_livetime[i]`.  Exhausting the
livetime list first is Python's `IndexError`. -/
def stackLoop : List EffectiveAreaTable → List FV → List FV → Except NpError (List FV)
  | [], _, aefft => .ok aefft
  | _ :: _, [], _ => .error NpError.indexError
  | arf :: arfs, t :: ts, aefft =>
      match npAddV aefft ((arf.evaluate true).map (· * t)) with
      | .ok aefft2 => stackLoop arfs ts aefft2
      | .error e => .error e

/-- `IRFStacker.stack_aeff`: compute the livetime-weighted mean effective
area and store it in `stacked_aeff`.  Translation of:
`nbins = list_arf[0].energy.nbins`; `aefft = zeros(nbins)`;
`livetime_tot = sum(list_livetime)`; the accumulation loop;
`stacked_data = aefft / livetime_tot`; construction of the result table on
the first observation's energy axis. -/
def IRFStacker.stack_aeff (s : IRFStacker) : Except NpError IRFStacker :=
  match s.list_arf with
  | [] => .error NpError.indexError
  | arf0 :: _ =>
      match stackLoop s.list_arf s.list_livetime
          (List.replicate (nbinsOf arf0.energy) (FV.fin 0)) with
      | .error e => .error e
      | .ok aefft =>
          let c := EffectiveAreaTable.mk arf0.energy (aefft.map (· / npSum s.list_livetime))
          .ok { s with stacked_aeff := some c }

/-- The `for i, rmf in enumerate(self.list_rmf)` loop of `mean_rmf`:
`aefft += list_arf[i].evaluate(fill_nan=True) * list_livetime[i]` and
`aefftedisp += rmf.pdf_in_safe_range(low[i], high[i]).transpose() * aefft_current`.
Exhausting any of the four indexed lists first is Python's `IndexError`. -/
def meanRmfLoop : List EnergyDispersion → List EffectiveAreaTable → List FV →
    List ℚ → List ℚ → List FV → List (List FV) →
    Except NpError (List FV × List (List FV))
  | [], _, _, _, _, aefft, aefftedisp => .ok (aefft, aefftedisp)
  | _ :: _, [], _, _, _, _, _ => .error NpError.indexError
  | _ :: _, _ :: _, [], _, _, _, _ => .error NpError.indexError
  | _ :: _, _ :: _, _ :: _, [], _, _, _ => .error NpError.indexError
  | _ :: _, _ :: _, _ :: _, _ :: _, [], _, _ => .error NpError.indexError
  | rmf :: rmfs, arf :: arfs, t :: ts, lo :: los, hi :: his, aefft, aefftedisp =>
      let aefft_current := (arf.evaluate true).map (· * t)
      match npAddV aefft aefft_current with
      | .error e => .error e
      | .ok aefft2 =>
          match npMulMV (mTranspose (rmf.pdf_in_safe_range lo hi)) aefft_current with
          | .error e => .error e
          | .ok prod =>
              match npAddM aefftedisp prod with
              | .error e => .error e
              | .ok aefftedisp2 => meanRmfLoop rmfs arfs ts los his aefft2 aefftedisp2

/-- `IRFStacker.mean_rmf`: compute the exposure- and area-weighted mean
energy dispersion and store it in `stacked_edisp`.  Translation of:
`reco_bins = list_rmf[0].e_reco.nbins`; `true_bins = list_rmf[0].e_true.nbins`;
zero-initialised `aefft` (length `true_bins`) and `aefftedisp`
(`reco_bins × true_bins`); the accumulation loop;
`stacked_edisp = np.nan_to_num(aefftedisp / aefft)`; construction of the
result on the first dispersion's axes with `data = stacked_edisp.transpose()`. -/
def IRFStacker.mean_rmf (s : IRFStacker) : Except NpError IRFStacker :=
  match s.list_rmf with
  | [] => .error NpError.indexError
  | rmf0 :: _ =>
      match meanRmfLoop s.list_rmf s.list_arf s.list_livetime
          s.list_low_threshold s.list_high_threshold
          (List.replicate (nbinsOf rmf0.e_true) (FV.fin 0))
          (List.replicate (nbinsOf rmf0.e_reco)
            (List.replicate (nbinsOf rmf0.e_true) (FV.fin 0))) with
      | .error e => .error e
      | .ok (aefft, aefftedisp) =>
          match npDivMV aefftedisp aefft with
          | .error e => .error e
          | .ok q =>
              let d := EnergyDispersion.mk rmf0.e_true rmf0.e_reco (mTranspose (nanToNumM q))
              .ok { s with stacked_edisp := some d }

/-! ### Rational-valued specification functions

These state the quantities the spec's formulas talk about: per-bin area
values and the weighted numerators/denominators of the two stacked means. -/

/-- The (NaN-filled) area value of a curve at true-energy bin `l`. -/
def aeffQ (a : EffectiveAreaTable) (l : ℕ) : ℚ :=
  ((a.evaluate true).getD l (FV.fin 0)).toQ

/-- `Σ_j area_j[l] * livetime_j` over parallel observation lists. -/
def aeffNumQ : List EffectiveAreaTable → List ℚ → ℕ → ℚ
  | arf :: arfs, t :: ts, l => aeffQ arf l * t + aeffNumQ arfs ts l
  | _, _, _ => 0

/-- The dispersion probability of observation `rmf` at true bin `l`,
reconstructed bin `k`. -/
def edispQ (rmf : EnergyDispersion) (l k : ℕ) : ℚ :=
  ((rmf.data.getD l []).getD k (FV.fin 0)).toQ

/-- `Σ_j edisp_j[k,l] * area_j[l] * livetime_j * indicator(k safe for j)`,
the numerator of the stacked dispersion (sum driven by the dispersion list,
as in the code's loop). -/
def rmfNumQ : List EnergyDispersion → List EffectiveAreaTable → List ℚ →
    List ℚ → List ℚ → ℕ → ℕ → ℚ
  | rmf :: rmfs, arf :: arfs, t :: ts, lo :: los, hi :: his, k, l =>
      (if safeBin rmf.e_reco lo hi k then edispQ rmf l k else 0) * aeffQ arf l * t
        + rmfNumQ rmfs arfs ts los his k l
  | _, _, _, _, _, _, _ => 0

/-- `Σ_j area_j[l] * livetime_j`, the denominator of the stacked dispersion
(sum driven by the dispersion list, as in the code's loop). -/
def rmfDenQ : List EnergyDispersion → List EffectiveAreaTable → List ℚ → ℕ → ℚ
  | _ :: rmfs, arf :: arfs, t :: ts, l => aeffQ arf l * t + rmfDenQ rmfs arfs ts l
  | _, _, _, _ => 0

/-! ### Bridging lemmas: the `FV` computation on finite inputs computes the
rational formulas -/

theorem allFin_map_toQ {l : List FV} (h : ∀ x ∈ l, x.isFin = true) :
    (l.map FV.toQ).map FV.fin = l := by
  induction l with
  | nil => rfl
  | cons x xs ih =>
      simp only [List.map_cons, List.cons.injEq]
      exact ⟨FV.isFin_toQ (h x (List.mem_cons_self x xs)),
        ih (fun y hy => h y (List.mem_cons_of_mem x hy))⟩

theorem evaluate_length (a : EffectiveAreaTable) (b : Bool) :
    (a.evaluate b).length = a.data.length := by
  cases b <;> simp [EffectiveAreaTable.evaluate]

theorem evaluate_allFin {a : EffectiveAreaTable} (h : ∀ x ∈ a.data, x.isFin = true) :
    ∀ x ∈ a.evaluate true, x.isFin = true := by
  intro x hx
  simp only [EffectiveAreaTable.evaluate, if_pos, List.mem_map] at hx
  obtain ⟨y, hy, hxy⟩ := hx
  by_cases hn : y = FV.nan
  · rw [← hxy, if_pos hn]; rfl
  · rw [← hxy, if_neg hn]; exact h y hy

theorem zipWith_add_map_fin (a b : List ℚ) :
    List.zipWith (· + ·) (a.map FV.fin) (b.map FV.fin) =
      (List.zipWith (· + ·) a b).map FV.fin := by
  rw [List.zipWith_map, List.map_zipWith]
  rfl

theorem map_mul_fin (a : List ℚ) (t : ℚ) :
    (a.map FV.fin).map (· * FV.fin t) = (a.map (· * t)).map FV.fin := by
  rw [List.map_map, List.map_map]
  rfl

theorem npAddV_map_fin (a b : List ℚ) (h : b.length = a.length) :
    npAddV (a.map FV.fin) (b.map FV.fin) = .ok ((List.zipWith (· + ·) a b).map FV.fin) := by
  simp only [npAddV, List.length_map, h, if_pos]
  rw [zipWith_add_map_fin]

theorem foldl_add_fin (qts : List ℚ) :
    ∀ q0 : ℚ, (qts.map FV.fin).foldl (· + ·) (FV.fin q0) = FV.fin (q0 + qts.sum) := by
  induction qts with
  | nil => intro q0; simp
  | cons t ts ih =>
      intro q0
      simp only [List.map_cons, List.foldl_cons, FV.fin_add_fin, List.sum_cons, ih]
      ring_nf

theorem npSum_map_fin (qts : List ℚ) : npSum (qts.map FV.fin) = FV.fin qts.sum := by
  simpa using foldl_add_fin qts 0

/-- The accumulation loop of `stack_aeff`, on all-finite inputs, computes the
rational weighted sums: entry `l` of the result is the initial value plus
`Σ_j area_j[l] * livetime_j`. -/
theorem stackLoop_map_fin :
    ∀ (arfs : List EffectiveAreaTable) (qts qacc : List ℚ),
      arfs.length ≤ qts.length →
      (∀ a ∈ arfs, a.data.length = qacc.length ∧ ∀ x ∈ a.data, x.isFin = true) →
      ∃ qres : List ℚ,
        stackLoop arfs (qts.map FV.fin) (qacc.map FV.fin) = .ok (qres.map FV.fin) ∧
        qres.length = qacc.length ∧
        ∀ l, l < qacc.length → qres.getD l 0 = qacc.getD l 0 + aeffNumQ arfs qts l
  | [], qts, qacc, _, _ => by
      refine ⟨qacc, rfl, rfl, fun l _ => ?_⟩
      simp [aeffNumQ]
  | a :: arfs, [], qacc, hlen, _ => by simp at hlen
  | a :: arfs, t :: qts, qacc, hlen, hdat => by
      have hda : a.data.length = qacc.length ∧ ∀ x ∈ a.data, x.isFin = true :=
        hdat a (List.mem_cons_self a arfs)
      have hevF : ∀ x ∈ a.evaluate true, x.isFin = true := evaluate_allFin hda.2
      set Aq : List ℚ := (a.evaluate true).map FV.toQ with hAq
      have hAqlen : Aq.length = qacc.length := by
        rw [hAq, List.length_map, evaluate_length, hda.1]
      have hev : a.evaluate true = Aq.map FV.fin := (allFin_map_toQ hevF).symm
      have hcur : (a.evaluate true).map (· * FV.fin t) = (Aq.map (· * t)).map FV.fin := by
        rw [hev, map_mul_fin]
      have hadd : npAddV (qacc.map FV.fin) ((a.evaluate true).map (· * FV.fin t)) =
          .ok ((List.zipWith (· + ·) qacc (Aq.map (· * t))).map FV.fin) := by
        rw [hcur]
        exact npAddV_map_fin qacc (Aq.map (· * t)) (by rw [List.length_map, hAqlen])
      set qacc2 : List ℚ := List.zipWith (· + ·) qacc (Aq.map (· * t)) with hqacc2
      have hlen2 : qacc2.length = qacc.length := by
        rw [hqacc2, List.length_zipWith, List.length_map, hAqlen, Nat.min_self]
      have hdat2 : ∀ b ∈ arfs, b.data.length = qacc2.length ∧ ∀ x ∈ b.data, x.isFin = true := by
        intro b hb
        rw [hlen2]
        exact hdat b (List.mem_cons_of_mem a hb)
      obtain ⟨qres, hres, hreslen, hentry⟩ :=
        stackLoop_map_fin arfs qts qacc2 (Nat.le_of_succ_le_succ hlen) hdat2
      refine ⟨qres, ?_, by rw [hreslen, hlen2], fun l hl => ?_⟩
      · simp only [List.map_cons, stackLoop, hadd, hres]
      · have hl2 : l < qacc2.length := by rw [hlen2]; exact hl
        have he := hentry l hl2
        have hz : qacc2.getD l 0 = qacc.getD l 0 + Aq.getD l 0 * t := by
          rw [hqacc2, getD_zipWith_lt (· + ·) qacc (Aq.map (· * t)) l hl
            (by rw [List.length_map, hAqlen]; exact hl) 0 0 0]
          rw [getD_map_lt (· * t) Aq l (by rw [hAqlen]; exact hl) 0 0]
        have hq : Aq.getD l 0 = aeffQ a l := by
          rw [hAq, getD_map_lt FV.toQ (a.evaluate true) l
            (by rw [evaluate_length, hda.1]; exact hl) 0 (FV.fin 0)]
          rfl
        rw [he, hz, hq]
        show _ = _ + (aeffQ a l * t + aeffNumQ arfs qts l)
        ring

/-- Full specification of `stack_aeff` on consistent, all-finite input: the
method succeeds, writes only `stacked_aeff`, keeps the first observation's
energy axis, and entry `l` of the stacked curve is the `FV` quotient of the
rational weighted sum by the total livetime. -/
theorem stack_aeff_spec (s : IRFStacker) (arf0 : EffectiveAreaTable)
    (rest : List EffectiveAreaTable) (qts : List ℚ) (n : ℕ)
    (h0 : s.list_arf = arf0 :: rest)
    (ht : s.list_livetime = qts.map FV.fin)
    (hlen : s.list_arf.length ≤ qts.length)
    (hn : nbinsOf arf0.energy = n)
    (hdat : ∀ a ∈ s.list_arf, a.data.length = n ∧ ∀ x ∈ a.data, x.isFin = true) :
    ∃ c : EffectiveAreaTable,
      s.stack_aeff = .ok { s with stacked_aeff := some c } ∧
      c.energy = arf0.energy ∧ c.data.length = n ∧
      ∀ l, l < n →
        c.data.getD l (FV.fin 0) = FV.fin (aeffNumQ s.list_arf qts l) / FV.fin qts.sum := by
  have hrep : List.replicate (nbinsOf arf0.energy) (FV.fin 0) =
      (List.replicate n (0 : ℚ)).map FV.fin := by
    rw [List.map_replicate, hn]
  have hdat2 : ∀ a ∈ s.list_arf,
      a.data.length = (List.replicate n (0 : ℚ)).length ∧ ∀ x ∈ a.data, x.isFin = true := by
    intro a ha
    rw [List.length_replicate]
    exact hdat a ha
  obtain ⟨qres, hres, hreslen, hentry⟩ :=
    stackLoop_map_fin s.list_arf qts (List.replicate n (0 : ℚ)) hlen hdat2
  rw [List.length_replicate] at hreslen
  refine ⟨⟨arf0.energy, (qres.map FV.fin).map (· / npSum s.list_livetime)⟩, ?_, rfl, ?_, ?_⟩
  · have hres2 : stackLoop (arf0 :: rest) s.list_livetime
        (List.replicate (nbinsOf arf0.energy) (FV.fin 0)) = .ok (qres.map FV.fin) := by
      rw [hrep, ht, ← h0]
      exact hres
    simp only [IRFStacker.stack_aeff, h0, hres2]
  · simp [hreslen]
  · intro l hl
    have hl1 : l < (qres.map FV.fin).length := by
      rw [List.length_map, hreslen]; exact hl
    rw [getD_map_lt (· / npSum s.list_livetime) (qres.map FV.fin) l hl1 (FV.fin 0) (FV.fin 0),
      getD_map_lt FV.fin qres l (by rw [hreslen]; exact hl) (FV.fin 0) 0]
    have he := hentry l (by rw [List.length_replicate]; exact hl)
    rw [getD_replicate_lt (0 : ℚ) n l hl 0, zero_add] at he
    rw [he, ht, npSum_map_fin]

/-! ### Bridging lemmas for the matrix operations of `mean_rmf` -/

theorem getD_map_total {α β : Type} (f : α → β) :
    ∀ (xs : List α) (n : ℕ) (d : α), (xs.map f).getD n (f d) = f (xs.getD n d)
  | [], _, _ => rfl
  | _ :: _, 0, _ => rfl
  | _ :: xs, n + 1, d => getD_map_total f xs n d

theorem allFin_matrix {m : List (List FV)} (h : ∀ row ∈ m, ∀ x ∈ row, x.isFin = true) :
    (m.map (List.map FV.toQ)).map (List.map FV.fin) = m := by
  rw [List.map_map]
  have : ∀ row ∈ m, (List.map FV.fin ∘ List.map FV.toQ) row = row := by
    intro row hrow
    show (row.map FV.toQ).map FV.fin = row
    exact allFin_map_toQ (h row hrow)
  rw [List.map_congr_left this, List.map_id']

theorem maskRow_length (e : List ℚ) (lo hi : ℚ) :
    ∀ (k : ℕ) (xs : List FV), (maskRow e lo hi k xs).length = xs.length
  | _, [] => rfl
  | k, _ :: xs => by
      simp only [maskRow, List.length_cons, maskRow_length e lo hi (k + 1) xs]

theorem maskRow_getD (e : List ℚ) (lo hi : ℚ) :
    ∀ (xs : List FV) (k j : ℕ),
      (maskRow e lo hi k xs).getD j (FV.fin 0) =
        if safeBin e lo hi (k + j) then xs.getD j (FV.fin 0) else FV.fin 0
  | [], k, j => by simp [maskRow, List.getD]
  | x :: xs, k, 0 => by simp [maskRow]
  | x :: xs, k, j + 1 => by
      show (maskRow e lo hi (k + 1) xs).getD j (FV.fin 0) = _
      rw [maskRow_getD e lo hi xs (k + 1) j, Nat.add_assoc, Nat.add_comm 1 j]
      rfl

theorem maskRow_allFin (e : List ℚ) (lo hi : ℚ) :
    ∀ (k : ℕ) (xs : List FV), (∀ x ∈ xs, x.isFin = true) →
      ∀ y ∈ maskRow e lo hi k xs, y.isFin = true
  | _, [], _, y, hy => absurd hy (List.not_mem_nil y)
  | k, x :: xs, h, y, hy => by
      simp only [maskRow, List.mem_cons] at hy
      rcases hy with hy | hy
      · by_cases hs : safeBin e lo hi k
        · rw [hy, if_pos hs]; exact h x (List.mem_cons_self x xs)
        · rw [hy, if_neg hs]; rfl
      · exact maskRow_allFin e lo hi (k + 1) xs
          (fun z hz => h z (List.mem_cons_of_mem x hz)) y hy

/-- The rational shadow of `mTranspose`. -/
def mTransposeQ (m : List (List ℚ)) : List (List ℚ) :=
  (List.range (match m with | [] => 0 | r :: _ => r.length)).map
    (fun k => m.map (fun row => row.getD k 0))

theorem mTranspose_map_fin (m : List (List ℚ)) :
    mTranspose (m.map (List.map FV.fin)) = (mTransposeQ m).map (List.map FV.fin) := by
  have hc : (match m.map (List.map FV.fin) with | [] => 0 | r :: _ => r.length) =
      (match m with | [] => 0 | r :: _ => r.length) := by
    cases m with
    | nil => rfl
    | cons r rs => simp
  rw [mTranspose.eq_def, mTransposeQ.eq_def, hc, List.map_map]
  apply List.map_congr_left
  intro k _
  show (m.map (List.map FV.fin)).map (fun row => row.getD k (FV.fin 0)) =
    (m.map (fun row => row.getD k 0)).map FV.fin
  rw [List.map_map, List.map_map]
  apply List.map_congr_left
  intro row _
  show (row.map FV.fin).getD k (FV.fin 0) = FV.fin (row.getD k 0)
  exact getD_map_total FV.fin row k 0

theorem mTransposeQ_length (r0 : List ℚ) (rs : List (List ℚ)) :
    (mTransposeQ (r0 :: rs)).length = r0.length := by
  simp [mTransposeQ]

theorem mTransposeQ_rows (m : List (List ℚ)) :
    ∀ row ∈ mTransposeQ m, row.length = m.length := by
  intro row hrow
  simp only [mTransposeQ, List.mem_map] at hrow
  obtain ⟨k, _, hk⟩ := hrow
  rw [← hk, List.length_map]

theorem mTransposeQ_getD (r0 : List ℚ) (rs : List (List ℚ)) (k l : ℕ)
    (hk : k < r0.length) :
    ((mTransposeQ (r0 :: rs)).getD k []).getD l 0 = ((r0 :: rs).getD l []).getD k 0 := by
  rw [mTransposeQ]
  show (((List.range r0.length).map fun j => (r0 :: rs).map fun row => row.getD j 0).getD k
      []).getD l 0 = _
  rw [getD_range_map_lt (fun j => (r0 :: rs).map fun row => row.getD j 0) r0.length k hk []]
  have := getD_map_total (fun row : List ℚ => row.getD k 0) (r0 :: rs) l []
  simpa using this

theorem npZipV_mul_map_fin (a b : List ℚ) (h : b.length = a.length) :
    npZipV (· * ·) (a.map FV.fin) (b.map FV.fin) =
      .ok ((List.zipWith (· * ·) a b).map FV.fin) := by
  simp only [npZipV, List.length_map, h, if_pos]
  rw [List.zipWith_map, List.map_zipWith]
  rfl

theorem npMulMV_map_fin :
    ∀ (m : List (List ℚ)) (v : List ℚ), (∀ r ∈ m, r.length = v.length) →
      npMulMV (m.map (List.map FV.fin)) (v.map FV.fin) =
        .ok ((m.map (fun r => List.zipWith (· * ·) r v)).map (List.map FV.fin))
  | [], _, _ => rfl
  | r :: rs, v, h => by
      have hr : npZipV (· * ·) (r.map FV.fin) (v.map FV.fin) =
          .ok ((List.zipWith (· * ·) r v).map FV.fin) :=
        npZipV_mul_map_fin r v (h r (List.mem_cons_self r rs)).symm
      have ih := npMulMV_map_fin rs v (fun x hx => h x (List.mem_cons_of_mem r hx))
      simp only [npMulMV, rowsOp, List.map_cons] at ih ⊢
      rw [hr, ih]

theorem rowsOp2_addV_map_fin :
    ∀ (a b : List (List ℚ)), a.length = b.length →
      (∀ p ∈ a.zip b, p.2.length = p.1.length) →
      rowsOp2 npAddV (a.map (List.map FV.fin)) (b.map (List.map FV.fin)) =
        .ok ((List.zipWith (fun r1 r2 => List.zipWith (· + ·) r1 r2) a b).map (List.map FV.fin))
  | [], [], _, _ => rfl
  | [], _ :: _, h, _ => by simp at h
  | _ :: _, [], h, _ => by simp at h
  | ra :: as_, rb :: bs, h, hp => by
      have h1 : npAddV (ra.map FV.fin) (rb.map FV.fin) =
          .ok ((List.zipWith (· + ·) ra rb).map FV.fin) :=
        npAddV_map_fin ra rb (hp (ra, rb) (by simp [List.zip_cons_cons]))
      have ih := rowsOp2_addV_map_fin as_ bs (by simpa using h)
        (fun p hpm => hp p (by simp [List.zip_cons_cons, hpm]))
      simp only [List.map_cons, rowsOp2]
      rw [h1, ih]
      rfl

theorem npAddM_map_fin (a b : List (List ℚ)) (h : a.length = b.length)
    (hp : ∀ p ∈ a.zip b, p.2.length = p.1.length) :
    npAddM (a.map (List.map FV.fin)) (b.map (List.map FV.fin)) =
      .ok ((List.zipWith (fun r1 r2 => List.zipWith (· + ·) r1 r2) a b).map (List.map FV.fin)) := by
  simp only [npAddM, List.length_map, h, if_pos]
  exact rowsOp2_addV_map_fin a b h hp

theorem npDivMV_ok (m : List (List FV)) (v : List FV) (h : ∀ r ∈ m, r.length = v.length) :
    npDivMV m v = .ok (m.map (fun r => List.zipWith (· / ·) r v)) := by
  induction m with
  | nil => rfl
  | cons r rs ih =>
      have h1 : npZipV (· / ·) r v = .ok (List.zipWith (· / ·) r v) := by
        simp only [npZipV, (h r (List.mem_cons_self r rs)).symm, if_pos]
      have ih2 := ih (fun x hx => h x (List.mem_cons_of_mem r hx))
      simp only [npDivMV, rowsOp] at ih2 ⊢
      rw [h1, ih2]
      rfl

theorem zipWith_rows_length {T : ℕ} :
    ∀ (a b : List (List ℚ)), (∀ r ∈ a, r.length = T) → (∀ r ∈ b, r.length = T) →
      ∀ r ∈ List.zipWith (fun r1 r2 => List.zipWith (· + ·) r1 r2) a b, r.length = T
  | [], _, _, _, r, hr => by simp at hr
  | _ :: _, [], _, _, r, hr => by simp at hr
  | ra :: as_, rb :: bs, ha, hb, r, hr => by
      simp only [List.zipWith_cons_cons, List.mem_cons] at hr
      rcases hr with hr | hr
      · rw [hr, List.length_zipWith, ha ra (List.mem_cons_self ra as_),
          hb rb (List.mem_cons_self rb bs), Nat.min_self]
      · exact zipWith_rows_length as_ bs (fun x hx => ha x (List.mem_cons_of_mem ra hx))
          (fun x hx => hb x (List.mem_cons_of_mem rb hx)) r hr

theorem rows_getD_length {α : Type} {m : List (List α)} {T k : ℕ}
    (h : ∀ r ∈ m, r.length = T) (hk : k < m.length) : (m.getD k []).length = T := by
  rw [List.getD_eq_getElem _ _ hk]
  exact h _ (List.getElem_mem hk)

/-- The accumulation loop of `mean_rmf`, on all-finite consistently shaped
inputs, computes the rational weighted sums: the vector accumulator gains
`Σ_j area_j[l] * t_j` and the matrix accumulator gains
`Σ_j edisp_j[k,l] * area_j[l] * t_j * indicator(k safe for j)`. -/
theorem meanRmfLoop_map_fin :
    ∀ (rmfs : List EnergyDispersion) (arfs : List EffectiveAreaTable)
      (qts lows highs : List ℚ) (va : List ℚ) (ma : List (List ℚ)) (T R : ℕ),
      0 < T →
      va.length = T → ma.length = R → (∀ r ∈ ma, r.length = T) →
      rmfs.length ≤ arfs.length → rmfs.length ≤ qts.length →
      rmfs.length ≤ lows.length → rmfs.length ≤ highs.length →
      (∀ a ∈ arfs, a.data.length = T ∧ ∀ x ∈ a.data, x.isFin = true) →
      (∀ r ∈ rmfs, r.data.length = T ∧
        ∀ row ∈ r.data, row.length = R ∧ ∀ x ∈ row, x.isFin = true) →
      ∃ (qva : List ℚ) (qma : List (List ℚ)),
        meanRmfLoop rmfs arfs (qts.map FV.fin) lows highs
            (va.map FV.fin) (ma.map (List.map FV.fin))
          = .ok (qva.map FV.fin, qma.map (List.map FV.fin)) ∧
        qva.length = T ∧ qma.length = R ∧ (∀ r ∈ qma, r.length = T) ∧
        (∀ l, l < T → qva.getD l 0 = va.getD l 0 + rmfDenQ rmfs arfs qts l) ∧
        (∀ k l, k < R → l < T →
          (qma.getD k []).getD l 0 =
            (ma.getD k []).getD l 0 + rmfNumQ rmfs arfs qts lows highs k l)
  | [], arfs, qts, lows, highs, va, ma, T, R, _, hva, hmaL, hmaR, _, _, _, _, _, _ => by
      refine ⟨va, ma, rfl, hva, hmaL, hmaR, fun l _ => ?_, fun k l _ _ => ?_⟩
      · show va.getD l 0 = va.getD l 0 + rmfDenQ [] arfs qts l
        rw [rmfDenQ.eq_def]
        cases arfs <;> cases qts <;> simp
      · show (ma.getD k []).getD l 0 = (ma.getD k []).getD l 0 + rmfNumQ [] arfs qts lows highs k l
        rw [rmfNumQ.eq_def]
        cases arfs <;> cases qts <;> cases lows <;> cases highs <;> simp
  | rmf :: rmfs, [], qts, lows, highs, va, ma, T, R, _, _, _, _, hl1, _, _, _, _, _ => by
      simp at hl1
  | rmf :: rmfs, arf :: arfs, [], lows, highs, va, ma, T, R, _, _, _, _, _, hl2, _, _, _, _ => by
      simp at hl2
  | rmf :: rmfs, arf :: arfs, t :: qts, [], highs, va, ma, T, R,
      _, _, _, _, _, _, hl3, _, _, _ => by simp at hl3
  | rmf :: rmfs, arf :: arfs, t :: qts, lo :: lows, [], va, ma, T, R,
      _, _, _, _, _, _, _, hl4, _, _ => by simp at hl4
  | rmf :: rmfs, arf :: arfs, t :: qts, lo :: lows, hi :: highs, va, ma, T, R,
      hT, hva, hmaL, hmaR, hl1, hl2, hl3, hl4, harf, hrmf => by
      have harf0 := harf arf (List.mem_cons_self arf arfs)
      have hrmf0 := hrmf rmf (List.mem_cons_self rmf rmfs)
      -- the weighted effective-area increment
      set Aq : List ℚ := (arf.evaluate true).map FV.toQ with hAqdef
      have hAqlen : Aq.length = T := by
        rw [hAqdef, List.length_map, evaluate_length, harf0.1]
      have hev : arf.evaluate true = Aq.map FV.fin :=
        (allFin_map_toQ (evaluate_allFin harf0.2)).symm
      set cur : List ℚ := Aq.map (· * t) with hcurdef
      have hcurlen : cur.length = T := by rw [hcurdef, List.length_map, hAqlen]
      have hcur : (arf.evaluate true).map (· * FV.fin t) = cur.map FV.fin := by
        rw [hev, map_mul_fin]
      set va2 : List ℚ := List.zipWith (· + ·) va cur with hva2def
      have hva2len : va2.length = T := by
        rw [hva2def, List.length_zipWith, hva, hcurlen, Nat.min_self]
      have hadd : npAddV (va.map FV.fin) (cur.map FV.fin) =
          .ok (va2.map FV.fin) :=
        npAddV_map_fin va cur (by rw [hcurlen, hva])
      -- the masked dispersion and its transpose
      set Pq : List (List ℚ) :=
        (rmf.pdf_in_safe_range lo hi).map (List.map FV.toQ) with hPqdef
      have hpdfFin : ∀ row ∈ rmf.pdf_in_safe_range lo hi, ∀ x ∈ row, x.isFin = true := by
        intro row hrow
        simp only [EnergyDispersion.pdf_in_safe_range, List.mem_map] at hrow
        obtain ⟨row0, hrow0, hmask⟩ := hrow
        rw [← hmask]
        exact maskRow_allFin rmf.e_reco lo hi 0 row0 ((hrmf0.2 row0 hrow0).2)
      have hpdfF : rmf.pdf_in_safe_range lo hi = Pq.map (List.map FV.fin) :=
        (allFin_matrix hpdfFin).symm
      have hPqlen : Pq.length = T := by
        rw [hPqdef, List.length_map, EnergyDispersion.pdf_in_safe_range,
          List.length_map, hrmf0.1]
      have hPqrows : ∀ r ∈ Pq, r.length = R := by
        intro r hr
        rw [hPqdef] at hr
        simp only [List.mem_map, EnergyDispersion.pdf_in_safe_range] at hr
        obtain ⟨r1, hr1, hrq⟩ := hr
        obtain ⟨row0, hrow0, hmask⟩ := hr1
        rw [← hrq, List.length_map, ← hmask, maskRow_length]
        exact (hrmf0.2 row0 hrow0).1
      set Tq : List (List ℚ) := mTransposeQ Pq with hTqdef
      obtain ⟨p0, prest, hPqcons⟩ : ∃ p0 prest, Pq = p0 :: prest := by
        cases hp : Pq with
        | nil => rw [hp] at hPqlen; rw [← hPqlen] at hT; simp at hT
        | cons p0 prest => exact ⟨p0, prest, rfl⟩
      have hp0len : p0.length = R := hPqrows p0 (by rw [hPqcons]; exact List.mem_cons_self _ _)
      have hTqlen : Tq.length = R := by
        rw [hTqdef, hPqcons, mTransposeQ_length, hp0len]
      have hTqrows : ∀ r ∈ Tq, r.length = T := by
        intro r hr
        rw [hTqdef] at hr
        rw [mTransposeQ_rows Pq r hr, hPqlen]
      have hmt : mTranspose (rmf.pdf_in_safe_range lo hi) = Tq.map (List.map FV.fin) := by
        rw [hpdfF, mTranspose_map_fin, hTqdef]
      set ProdQ : List (List ℚ) := Tq.map (fun r => List.zipWith (· * ·) r cur) with hProdQdef
      have hmul : npMulMV (Tq.map (List.map FV.fin)) (cur.map FV.fin) =
          .ok (ProdQ.map (List.map FV.fin)) :=
        npMulMV_map_fin Tq cur (fun r hr => by rw [hTqrows r hr, hcurlen])
      have hProdQlen : ProdQ.length = R := by rw [hProdQdef, List.length_map, hTqlen]
      have hProdQrows : ∀ r ∈ ProdQ, r.length = T := by
        intro r hr
        rw [hProdQdef] at hr
        simp only [List.mem_map] at hr
        obtain ⟨r0, hr0, hrq⟩ := hr
        rw [← hrq, List.length_zipWith, hTqrows r0 hr0, hcurlen, Nat.min_self]
      set ma2 : List (List ℚ) :=
        List.zipWith (fun r1 r2 => List.zipWith (· + ·) r1 r2) ma ProdQ with hma2def
      have hmadd : npAddM (ma.map (List.map FV.fin)) (ProdQ.map (List.map FV.fin)) =
          .ok (ma2.map (List.map FV.fin)) :=
        npAddM_map_fin ma ProdQ (by rw [hmaL, hProdQlen])
          (fun p hp => by
            have hmem := List.of_mem_zip hp
            rw [hmaR p.1 hmem.1, hProdQrows p.2 hmem.2])
      have hma2len : ma2.length = R := by
        rw [hma2def, List.length_zipWith, hmaL, hProdQlen, Nat.min_self]
      have hma2rows : ∀ r ∈ ma2, r.length = T := by
        rw [hma2def]
        exact zipWith_rows_length ma ProdQ hmaR hProdQrows
      -- apply the induction hypothesis to the updated accumulators
      obtain ⟨qva, qma, hrec, hqvalen, hqmalen, hqmarows, hfst, hsnd⟩ :=
        meanRmfLoop_map_fin rmfs arfs qts lows highs va2 ma2 T R hT hva2len hma2len hma2rows
          (Nat.le_of_succ_le_succ hl1) (Nat.le_of_succ_le_succ hl2)
          (Nat.le_of_succ_le_succ hl3) (Nat.le_of_succ_le_succ hl4)
          (fun a ha => harf a (List.mem_cons_of_mem arf ha))
          (fun r hr => hrmf r (List.mem_cons_of_mem rmf hr))
      refine ⟨qva, qma, ?_, hqvalen, hqmalen, hqmarows, ?_, ?_⟩
      · simp only [List.map_cons, meanRmfLoop, hcur, hadd, hmt, hmul, hmadd]
        exact hrec
      · intro l hl
        have h1 := hfst l hl
        have h2 : va2.getD l 0 = va.getD l 0 + Aq.getD l 0 * t := by
          rw [hva2def, getD_zipWith_lt (· + ·) va cur l (by rw [hva]; exact hl)
            (by rw [hcurlen]; exact hl) 0 0 0, hcurdef,
            getD_map_lt (· * t) Aq l (by rw [hAqlen]; exact hl) 0 0]
        have h3 : Aq.getD l 0 = aeffQ arf l := by
          rw [hAqdef, getD_map_lt FV.toQ (arf.evaluate true) l
            (by rw [evaluate_length, harf0.1]; exact hl) 0 (FV.fin 0)]
          rfl
        rw [h1, h2, h3]
        show _ = _ + (aeffQ arf l * t + rmfDenQ rmfs arfs qts l)
        ring
      · intro k l hk hl
        have h1 := hsnd k l hk hl
        have hmak : (ma.getD k []).length = T := rows_getD_length hmaR (by rw [hmaL]; exact hk)
        have hPropk : (ProdQ.getD k []).length = T :=
          rows_getD_length hProdQrows (by rw [hProdQlen]; exact hk)
        have h2 : (ma2.getD k []).getD l 0 =
            (ma.getD k []).getD l 0 + (ProdQ.getD k []).getD l 0 := by
          rw [hma2def, getD_zipWith_lt (fun r1 r2 => List.zipWith (· + ·) r1 r2) ma ProdQ k
            (by rw [hmaL]; exact hk) (by rw [hProdQlen]; exact hk) [] [] []]
          rw [getD_zipWith_lt (· + ·) (ma.getD k []) (ProdQ.getD k []) l
            (by rw [hmak]; exact hl) (by rw [hPropk]; exact hl) 0 0 0]
        have hTqk : (Tq.getD k []).length = T := rows_getD_length hTqrows (by rw [hTqlen]; exact hk)
        have h3 : (ProdQ.getD k []).getD l 0 = (Tq.getD k []).getD l 0 * cur.getD l 0 := by
          rw [hProdQdef, getD_map_lt (fun r => List.zipWith (· * ·) r cur) Tq k
            (by rw [hTqlen]; exact hk) [] []]
          rw [getD_zipWith_lt (· * ·) (Tq.getD k []) cur l
            (by rw [hTqk]; exact hl) (by rw [hcurlen]; exact hl) 0 0 0]
        have h4 : (Tq.getD k []).getD l 0 = (Pq.getD l []).getD k 0 := by
          rw [hTqdef, hPqcons, mTransposeQ_getD p0 prest k l (by rw [hp0len]; exact hk)]
        have hdatl : (rmf.data.getD l []).length = R := by
          refine rows_getD_length (fun r hr => (hrmf0.2 r hr).1) ?_
          rw [hrmf0.1]; exact hl
        have h5 : (Pq.getD l []).getD k 0 =
            if safeBin rmf.e_reco lo hi k then edispQ rmf l k else 0 := by
          rw [hPqdef, getD_map_lt (List.map FV.toQ) (rmf.pdf_in_safe_range lo hi) l
            (by rw [EnergyDispersion.pdf_in_safe_range, List.length_map, hrmf0.1]; exact hl) [] []]
          rw [EnergyDispersion.pdf_in_safe_range,
            getD_map_lt (maskRow rmf.e_reco lo hi 0) rmf.data l
            (by rw [hrmf0.1]; exact hl) [] []]
          have hkrow : k < (maskRow rmf.e_reco lo hi 0 (rmf.data.getD l [])).length := by
            rw [maskRow_length, hdatl]; exact hk
          rw [getD_map_lt FV.toQ _ k hkrow 0 (FV.fin 0),
            maskRow_getD rmf.e_reco lo hi (rmf.data.getD l []) 0 k, Nat.zero_add,
            apply_ite FV.toQ]
          rfl
        have h6 : cur.getD l 0 = aeffQ arf l * t := by
          rw [hcurdef, getD_map_lt (· * t) Aq l (by rw [hAqlen]; exact hl) 0 0, hAqdef,
            getD_map_lt FV.toQ (arf.evaluate true) l
            (by rw [evaluate_length, harf0.1]; exact hl) 0 (FV.fin 0)]
          rfl
        rw [h1, h2, h3, h4, h5, h6]
        show _ = _ + ((if safeBin rmf.e_reco lo hi k then edispQ rmf l k else 0) *
          aeffQ arf l * t + rmfNumQ rmfs arfs qts lows highs k l)
        ring

theorem mTranspose_length (r0 : List FV) (rs : List (List FV)) :
    (mTranspose (r0 :: rs)).length = r0.length := by
  simp [mTranspose]

theorem mTranspose_rows (m : List (List FV)) :
    ∀ row ∈ mTranspose m, row.length = m.length := by
  intro row hrow
  simp only [mTranspose, List.mem_map] at hrow
  obtain ⟨k, _, hk⟩ := hrow
  rw [← hk, List.length_map]

theorem mTranspose_getD (r0 : List FV) (rs : List (List FV)) (k l : ℕ)
    (hk : k < r0.length) :
    ((mTranspose (r0 :: rs)).getD k []).getD l (FV.fin 0) =
      ((r0 :: rs).getD l []).getD k (FV.fin 0) := by
  rw [mTranspose.eq_def]
  show (((List.range r0.length).map
      fun j => (r0 :: rs).map fun row => row.getD j (FV.fin 0)).getD k []).getD l (FV.fin 0) = _
  rw [getD_range_map_lt (fun j => (r0 :: rs).map fun row => row.getD j (FV.fin 0))
    r0.length k hk []]
  have := getD_map_total (fun row : List FV => row.getD k (FV.fin 0)) (r0 :: rs) l []
  simpa using this

/-- Full specification of `mean_rmf` on consistent, all-finite input: the
method succeeds, writes only `stacked_edisp`, keeps the first dispersion's
axes, and the stored entry at true bin `l`, reconstructed bin `k` is
`np.nan_to_num` of the `FV` quotient of the rational numerator by the
rational denominator. -/
theorem mean_rmf_spec (s : IRFStacker) (rmf0 : EnergyDispersion)
    (rest : List EnergyDispersion) (qts : List ℚ) (T R : ℕ)
    (h0 : s.list_rmf = rmf0 :: rest)
    (ht : s.list_livetime = qts.map FV.fin)
    (hT : nbinsOf rmf0.e_true = T) (hR : nbinsOf rmf0.e_reco = R)
    (hT0 : 0 < T) (hR0 : 0 < R)
    (hl1 : s.list_rmf.length ≤ s.list_arf.length)
    (hl2 : s.list_rmf.length ≤ qts.length)
    (hl3 : s.list_rmf.length ≤ s.list_low_threshold.length)
    (hl4 : s.list_rmf.length ≤ s.list_high_threshold.length)
    (harf : ∀ a ∈ s.list_arf, a.data.length = T ∧ ∀ x ∈ a.data, x.isFin = true)
    (hrmf : ∀ r ∈ s.list_rmf, r.data.length = T ∧
      ∀ row ∈ r.data, row.length = R ∧ ∀ x ∈ row, x.isFin = true) :
    ∃ d : EnergyDispersion,
      s.mean_rmf = .ok { s with stacked_edisp := some d } ∧
      d.e_true = rmf0.e_true ∧ d.e_reco = rmf0.e_reco ∧
      d.data.length = T ∧ (∀ row ∈ d.data, row.length = R) ∧
      ∀ l k, l < T → k < R →
        (d.data.getD l []).getD k (FV.fin 0) =
          FV.nanToNum (FV.fin (rmfNumQ s.list_rmf s.list_arf qts
              s.list_low_threshold s.list_high_threshold k l) /
            FV.fin (rmfDenQ s.list_rmf s.list_arf qts l)) := by
  obtain ⟨qva, qma, hloop, hqvalen, hqmalen, hqmarows, hfst, hsnd⟩ :=
    meanRmfLoop_map_fin s.list_rmf s.list_arf qts s.list_low_threshold s.list_high_threshold
      (List.replicate T (0 : ℚ)) (List.replicate R (List.replicate T (0 : ℚ))) T R hT0
      (List.length_replicate T 0) (List.length_replicate R _)
      (fun r hr => by rw [List.eq_of_mem_replicate hr]; exact List.length_replicate T 0)
      hl1 hl2 hl3 hl4 harf hrmf
  set G : ℚ → ℚ → FV := fun a b => FV.nanToNum (FV.fin a / FV.fin b) with hGdef
  set NTS : List (List FV) := qma.map (fun row => List.zipWith G row qva) with hNTSdef
  have hNTSlen : NTS.length = R := by rw [hNTSdef, List.length_map, hqmalen]
  have hNTSrows : ∀ row ∈ NTS, row.length = T := by
    intro row hrow
    rw [hNTSdef] at hrow
    simp only [List.mem_map] at hrow
    obtain ⟨r0, hr0, hrq⟩ := hrow
    rw [← hrq, List.length_zipWith, hqmarows r0 hr0, hqvalen, Nat.min_self]
  have hdiv : npDivMV (qma.map (List.map FV.fin)) (qva.map FV.fin) =
      .ok ((qma.map (List.map FV.fin)).map
        (fun r => List.zipWith (· / ·) r (qva.map FV.fin))) :=
    npDivMV_ok _ _ (fun r hr => by
      simp only [List.mem_map] at hr
      obtain ⟨r0, hr0, hrq⟩ := hr
      rw [← hrq, List.length_map, List.length_map, hqmarows r0 hr0, hqvalen])
  have hnts : nanToNumM ((qma.map (List.map FV.fin)).map
      (fun r => List.zipWith (· / ·) r (qva.map FV.fin))) = NTS := by
    rw [nanToNumM, List.map_map, List.map_map, hNTSdef]
    apply List.map_congr_left
    intro row _
    show (List.zipWith (· / ·) (row.map FV.fin) (qva.map FV.fin)).map FV.nanToNum =
      List.zipWith G row qva
    rw [List.zipWith_map, List.map_zipWith]
  obtain ⟨q0, qrest, hNTScons⟩ : ∃ q0 qrest, NTS = q0 :: qrest := by
    cases hq : NTS with
    | nil => rw [hq] at hNTSlen; rw [← hNTSlen] at hR0; simp at hR0
    | cons q0 qrest => exact ⟨q0, qrest, rfl⟩
  have hq0len : q0.length = T := hNTSrows q0 (by rw [hNTScons]; exact List.mem_cons_self _ _)
  refine ⟨⟨rmf0.e_true, rmf0.e_reco, mTranspose NTS⟩, ?_, rfl, rfl, ?_, ?_, ?_⟩
  · have hloop2 : meanRmfLoop (rmf0 :: rest) s.list_arf s.list_livetime
        s.list_low_threshold s.list_high_threshold
        (List.replicate (nbinsOf rmf0.e_true) (FV.fin 0))
        (List.replicate (nbinsOf rmf0.e_reco)
          (List.replicate (nbinsOf rmf0.e_true) (FV.fin 0))) =
        .ok (qva.map FV.fin, qma.map (List.map FV.fin)) := by
      rw [hT, hR, ht, ← h0]
      have e1 : List.replicate T (FV.fin 0) = (List.replicate T (0 : ℚ)).map FV.fin := by
        rw [List.map_replicate]
      have e2 : List.replicate R (List.replicate T (FV.fin 0)) =
          (List.replicate R (List.replicate T (0 : ℚ))).map (List.map FV.fin) := by
        rw [List.map_replicate, List.map_replicate]
      rw [e2, e1]
      exact hloop
    simp only [IRFStacker.mean_rmf, h0, hloop2, hdiv, hnts]
  · rw [hNTScons, mTranspose_length, hq0len]
  · intro row hrow
    rw [mTranspose_rows NTS row hrow, hNTSlen]
  · intro l k hl hk
    show ((mTranspose NTS).getD l []).getD k (FV.fin 0) = _
    rw [hNTScons, mTranspose_getD q0 qrest l k (by rw [hq0len]; exact hl), ← hNTScons]
    have hnk : NTS.getD k [] = List.zipWith G (qma.getD k []) qva := by
      rw [hNTSdef, getD_map_lt (fun row => List.zipWith G row qva) qma k
        (by rw [hqmalen]; exact hk) [] []]
    have hqmak : (qma.getD k []).length = T :=
      rows_getD_length hqmarows (by rw [hqmalen]; exact hk)
    rw [hnk, getD_zipWith_lt G (qma.getD k []) qva l
      (by rw [hqmak]; exact hl) (by rw [hqvalen]; exact hl) (FV.fin 0) 0 0]
    have hv : qva.getD l 0 = rmfDenQ s.list_rmf s.list_arf qts l := by
      have hx := hfst l hl
      rwa [getD_replicate_lt (0 : ℚ) T l hl 0, zero_add] at hx
    have hm : (qma.getD k []).getD l 0 =
        rmfNumQ s.list_rmf s.list_arf qts s.list_low_threshold s.list_high_threshold k l := by
      have hx := hsnd k l hk hl
      rwa [getD_replicate_lt (List.replicate T (0 : ℚ)) R k hk [],
        getD_replicate_lt (0 : ℚ) T l hl 0, zero_add] at hx
    rw [hm, hv, hGdef]

/-! ### Sign and degeneracy facts about the rational formulas -/

theorem toQ_getD_nonneg (xs : List FV) (l : ℕ) (h : ∀ x ∈ xs, 0 ≤ x.toQ) :
    0 ≤ (xs.getD l (FV.fin 0)).toQ := by
  by_cases hl : l < xs.length
  · rw [List.getD_eq_getElem _ _ hl]
    exact h _ (List.getElem_mem hl)
  · rw [List.getD_eq_default _ _ (Nat.le_of_not_lt hl)]
    exact le_refl 0

theorem evaluate_nonneg {a : EffectiveAreaTable} (h : ∀ x ∈ a.data, 0 ≤ x.toQ) :
    ∀ y ∈ a.evaluate true, 0 ≤ y.toQ := by
  intro y hy
  simp only [EffectiveAreaTable.evaluate, if_pos, List.mem_map] at hy
  obtain ⟨x, hx, hxy⟩ := hy
  by_cases hn : x = FV.nan
  · rw [← hxy, if_pos hn]
    exact le_refl 0
  · rw [← hxy, if_neg hn]
    exact h x hx

theorem aeffQ_nonneg (a : EffectiveAreaTable) (l : ℕ) (h : ∀ x ∈ a.data, 0 ≤ x.toQ) :
    0 ≤ aeffQ a l :=
  toQ_getD_nonneg _ l (evaluate_nonneg h)

theorem edispQ_nonneg (rmf : EnergyDispersion) (l k : ℕ)
    (h : ∀ row ∈ rmf.data, ∀ x ∈ row, 0 ≤ x.toQ) : 0 ≤ edispQ rmf l k := by
  apply toQ_getD_nonneg
  by_cases hl : l < rmf.data.length
  · rw [List.getD_eq_getElem _ _ hl]
    exact h _ (List.getElem_mem hl)
  · rw [List.getD_eq_default _ _ (Nat.le_of_not_lt hl)]
    intro x hx
    exact absurd hx (List.not_mem_nil x)

theorem aeffNumQ_nonneg (l : ℕ) :
    ∀ (arfs : List EffectiveAreaTable) (qts : List ℚ),
      (∀ a ∈ arfs, ∀ x ∈ a.data, 0 ≤ x.toQ) → (∀ t ∈ qts, 0 ≤ t) →
      0 ≤ aeffNumQ arfs qts l
  | [], qts, _, _ => by rw [aeffNumQ.eq_def]
  | a :: arfs, [], _, _ => le_refl 0
  | a :: arfs, t :: qts, hA, hT => by
      show 0 ≤ aeffQ a l * t + aeffNumQ arfs qts l
      have h1 := mul_nonneg (aeffQ_nonneg a l (hA a (List.mem_cons_self a arfs)))
        (hT t (List.mem_cons_self t qts))
      have h2 := aeffNumQ_nonneg l arfs qts
        (fun b hb => hA b (List.mem_cons_of_mem a hb))
        (fun u hu => hT u (List.mem_cons_of_mem t hu))
      exact add_nonneg h1 h2

theorem aeffNumQ_eq_zero (l : ℕ) :
    ∀ (arfs : List EffectiveAreaTable) (qts : List ℚ),
      (∀ t ∈ qts, t = 0) → aeffNumQ arfs qts l = 0
  | [], qts, _ => by rw [aeffNumQ.eq_def]
  | a :: arfs, [], _ => rfl
  | a :: arfs, t :: qts, h => by
      show aeffQ a l * t + aeffNumQ arfs qts l = 0
      rw [h t (List.mem_cons_self t qts),
        aeffNumQ_eq_zero l arfs qts (fun u hu => h u (List.mem_cons_of_mem t hu)),
        mul_zero, add_zero]

theorem aeffNumQ_replicate (t : ℚ) (l : ℕ) :
    ∀ (arfs : List EffectiveAreaTable) (m : ℕ), arfs.length = m →
      aeffNumQ arfs (List.replicate m t) l = (arfs.map (fun a => aeffQ a l)).sum * t
  | [], 0, _ => by simp [aeffNumQ]
  | [], m + 1, h => by simp at h
  | a :: arfs, 0, h => by simp at h
  | a :: arfs, m + 1, h => by
      show aeffQ a l * t + aeffNumQ arfs (List.replicate m t) l = _
      rw [aeffNumQ_replicate t l arfs m (by simpa using h), List.map_cons, List.sum_cons]
      ring

theorem rmfDenQ_nonneg (l : ℕ) :
    ∀ (rmfs : List EnergyDispersion) (arfs : List EffectiveAreaTable) (qts : List ℚ),
      (∀ a ∈ arfs, ∀ x ∈ a.data, 0 ≤ x.toQ) → (∀ t ∈ qts, 0 ≤ t) →
      0 ≤ rmfDenQ rmfs arfs qts l
  | [], arfs, qts, _, _ => by rw [rmfDenQ.eq_def]
  | r :: rmfs, [], qts, _, _ => by rw [rmfDenQ.eq_def]
  | r :: rmfs, a :: arfs, [], _, _ => le_refl 0
  | r :: rmfs, a :: arfs, t :: qts, hA, hT => by
      show 0 ≤ aeffQ a l * t + rmfDenQ rmfs arfs qts l
      have h1 := mul_nonneg (aeffQ_nonneg a l (hA a (List.mem_cons_self a arfs)))
        (hT t (List.mem_cons_self t qts))
      have h2 := rmfDenQ_nonneg l rmfs arfs qts
        (fun b hb => hA b (List.mem_cons_of_mem a hb))
        (fun u hu => hT u (List.mem_cons_of_mem t hu))
      exact add_nonneg h1 h2

theorem rmfNumQ_nonneg (k l : ℕ) :
    ∀ (rmfs : List EnergyDispersion) (arfs : List EffectiveAreaTable)
      (qts lows highs : List ℚ),
      (∀ r ∈ rmfs, ∀ row ∈ r.data, ∀ x ∈ row, 0 ≤ x.toQ) →
      (∀ a ∈ arfs, ∀ x ∈ a.data, 0 ≤ x.toQ) → (∀ t ∈ qts, 0 ≤ t) →
      0 ≤ rmfNumQ rmfs arfs qts lows highs k l
  | [], arfs, qts, lows, highs, _, _, _ => by rw [rmfNumQ.eq_def]
  | r :: rmfs, [], qts, lows, highs, _, _, _ => by rw [rmfNumQ.eq_def]
  | r :: rmfs, a :: arfs, [], lows, highs, _, _, _ => by rw [rmfNumQ.eq_def]
  | r :: rmfs, a :: arfs, t :: qts, [], highs, _, _, _ => by rw [rmfNumQ.eq_def]
  | r :: rmfs, a :: arfs, t :: qts, lo :: lows, [], _, _, _ => le_refl 0
  | r :: rmfs, a :: arfs, t :: qts, lo :: lows, hi :: highs, hR, hA, hT => by
      show 0 ≤ (if safeBin r.e_reco lo hi k then edispQ r l k else 0) * aeffQ a l * t
        + rmfNumQ rmfs arfs qts lows highs k l
      have he : 0 ≤ (if safeBin r.e_reco lo hi k then edispQ r l k else 0) := by
        by_cases hs : safeBin r.e_reco lo hi k
        · rw [if_pos hs]
          exact edispQ_nonneg r l k (hR r (List.mem_cons_self r rmfs))
        · rw [if_neg hs]
      have h1 := mul_nonneg (mul_nonneg he
        (aeffQ_nonneg a l (hA a (List.mem_cons_self a arfs))))
        (hT t (List.mem_cons_self t qts))
      have h2 := rmfNumQ_nonneg k l rmfs arfs qts lows highs
        (fun x hx => hR x (List.mem_cons_of_mem r hx))
        (fun b hb => hA b (List.mem_cons_of_mem a hb))
        (fun u hu => hT u (List.mem_cons_of_mem t hu))
      exact add_nonneg h1 h2

theorem rmfNumQ_eq_zero_of_den_zero (k l : ℕ) :
    ∀ (rmfs : List EnergyDispersion) (arfs : List EffectiveAreaTable)
      (qts lows highs : List ℚ),
      (∀ a ∈ arfs, ∀ x ∈ a.data, 0 ≤ x.toQ) → (∀ t ∈ qts, 0 ≤ t) →
      rmfDenQ rmfs arfs qts l = 0 →
      rmfNumQ rmfs arfs qts lows highs k l = 0
  | [], arfs, qts, lows, highs, _, _, _ => by rw [rmfNumQ.eq_def]
  | r :: rmfs, [], qts, lows, highs, _, _, _ => by rw [rmfNumQ.eq_def]
  | r :: rmfs, a :: arfs, [], lows, highs, _, _, _ => by rw [rmfNumQ.eq_def]
  | r :: rmfs, a :: arfs, t :: qts, [], highs, _, _, _ => by rw [rmfNumQ.eq_def]
  | r :: rmfs, a :: arfs, t :: qts, lo :: lows, [], _, _, _ => rfl
  | r :: rmfs, a :: arfs, t :: qts, lo :: lows, hi :: highs, hA, hT, hden => by
      have hd : aeffQ a l * t + rmfDenQ rmfs arfs qts l = 0 := hden
      have h1 : 0 ≤ aeffQ a l * t :=
        mul_nonneg (aeffQ_nonneg a l (hA a (List.mem_cons_self a arfs)))
          (hT t (List.mem_cons_self t qts))
      have h2 : 0 ≤ rmfDenQ rmfs arfs qts l :=
        rmfDenQ_nonneg l rmfs arfs qts
          (fun b hb => hA b (List.mem_cons_of_mem a hb))
          (fun u hu => hT u (List.mem_cons_of_mem t hu))
      have hz := (add_eq_zero_iff_of_nonneg h1 h2).mp hd
      show (if safeBin r.e_reco lo hi k then edispQ r l k else 0) * aeffQ a l * t
        + rmfNumQ rmfs arfs qts lows highs k l = 0
      rw [mul_assoc, hz.1, mul_zero,
        rmfNumQ_eq_zero_of_den_zero k l rmfs arfs qts lows highs
          (fun b hb => hA b (List.mem_cons_of_mem a hb))
          (fun u hu => hT u (List.mem_cons_of_mem t hu)) hz.2,
        add_zero]

theorem evaluate_eq_data_of_fin {a : EffectiveAreaTable}
    (h : ∀ x ∈ a.data, x.isFin = true) : a.evaluate true = a.data := by
  show a.data.map (fun x => if x = FV.nan then FV.fin 0 else x) = a.data
  have : ∀ x ∈ a.data, (if x = FV.nan then FV.fin 0 else x) = x := by
    intro x hx
    have := h x hx
    cases x <;> simp_all [FV.isFin]
  rw [List.map_congr_left this, List.map_id']

theorem fill_fin (q : ℚ) : (if FV.fin q = FV.nan then FV.fin 0 else FV.fin q) = FV.fin q := by
  rw [if_neg]
  intro h
  exact FV.noConfusion h

/-! ### Frame lemmas: each method only writes its own result attribute -/

theorem stack_aeff_frame (s s2 : IRFStacker) (h : s.stack_aeff = .ok s2) :
    ∃ c, s2 = { s with stacked_aeff := some c } := by
  unfold IRFStacker.stack_aeff at h
  split at h
  · exact absurd h (by simp)
  · split at h
    · exact absurd h (by simp)
    · simp only [Except.ok.injEq] at h
      exact ⟨_, h.symm⟩

theorem mean_rmf_frame (s s2 : IRFStacker) (h : s.mean_rmf = .ok s2) :
    ∃ d, s2 = { s with stacked_edisp := some d } := by
  unfold IRFStacker.mean_rmf at h
  split at h
  · exact absurd h (by simp)
  · split at h
    · exact absurd h (by simp)
    · split at h
      · exact absurd h (by simp)
      · simp only [Except.ok.injEq] at h
        exact ⟨_, h.symm⟩

/-! ### Concrete inputs used by witnesses (the spec's two-observation
scenario: areas [10,20] and [30,40] cm², livetimes 1 and 3) -/

def arfW1 : EffectiveAreaTable := ⟨[1, 2, 4], [FV.fin 10, FV.fin 20]⟩

def arfW2 : EffectiveAreaTable := ⟨[1, 2, 4], [FV.fin 30, FV.fin 40]⟩

def rmfW1 : EnergyDispersion :=
  ⟨[1, 2, 4], [1, 2, 4], [[FV.fin 1, FV.fin 0], [FV.fin 0, FV.fin 1]]⟩

def rmfW2 : EnergyDispersion :=
  ⟨[1, 2, 4], [1, 2, 4],
    [[FV.fin (1 / 2), FV.fin (1 / 2)], [FV.fin (1 / 2), FV.fin (1 / 2)]]⟩

def sW : IRFStacker :=
  IRFStacker.init [arfW1, arfW2] [FV.fin 1, FV.fin 3] [rmfW1, rmfW2] [1, 1] [4, 4]

/-! ### Claim theorems -/

/-- C1: for every non-empty list of effective-area curves and an
equal-length list of livetimes whose sum is positive (and consistent,
finite-valued bins), `stack_aeff` stores a curve whose value at every
true-energy bin `l` is `Σ_j area_j[l]·livetime_j / Σ_j livetime_j`.  The
spec's two-observation instance ([10,20],[30,40] cm², livetimes [1,3],
result [25,35] cm²) is checked in the witness. -/
theorem C1_stack_aeff_weighted_mean (s : IRFStacker) (arf0 : EffectiveAreaTable)
    (rest : List EffectiveAreaTable) (qts : List ℚ) (n : ℕ)
    (h0 : s.list_arf = arf0 :: rest)
    (ht : s.list_livetime = qts.map FV.fin)
    (hlen : qts.length = s.list_arf.length)
    (hsum : 0 < qts.sum)
    (hn : nbinsOf arf0.energy = n)
    (hdat : ∀ a ∈ s.list_arf, a.data.length = n ∧ ∀ x ∈ a.data, x.isFin = true) :
    ∃ c : EffectiveAreaTable,
      s.stack_aeff = .ok { s with stacked_aeff := some c } ∧
      c.energy = arf0.energy ∧ c.data.length = n ∧
      ∀ l, l < n → c.data.getD l (FV.fin 0) =
        FV.fin (aeffNumQ s.list_arf qts l / qts.sum) := by
  obtain ⟨c, h1, h2, h3, h4⟩ :=
    stack_aeff_spec s arf0 rest qts n h0 ht (le_of_eq hlen.symm) hn hdat
  refine ⟨c, h1, h2, h3, fun l hl => ?_⟩
  rw [h4 l hl, FV.fin_div_fin _ _ (ne_of_gt hsum)]

/-- Witness for C1 at the spec's concrete scenario: the stacked curve is
[25, 35] cm². -/
theorem C1_stack_aeff_weighted_mean_witness :
    ∃ c, sW.stack_aeff = .ok { sW with stacked_aeff := some c } ∧
      c.data = [FV.fin 25, FV.fin 35] := by
  obtain ⟨c, h1, h2, h3, h4⟩ :=
    C1_stack_aeff_weighted_mean sW arfW1 [arfW2] [1, 3] 2 rfl rfl (by decide) (by norm_num)
      rfl (by decide)
  refine ⟨c, h1, ?_⟩
  apply getD_ext (FV.fin 0)
  · rw [h3]; rfl
  · intro j hj
    rw [h3] at hj
    rw [h4 j hj]
    interval_cases j <;>
      norm_num [sW, IRFStacker.init, arfW1, arfW2, aeffNumQ, aeffQ,
        EffectiveAreaTable.evaluate, fill_fin, FV.toQ]

/-- C2: for every consistent, finite-valued input whose per-bin denominator
`Σ_j area_j[l]·t_j` is nonzero, `mean_rmf` stores a dispersion whose entry at
(reconstructed bin `k`, true bin `l`) is
`Σ_j edisp_j[k,l]·area_j[l]·t_j·1(k inside [low_j,high_j]) / Σ_j area_j[l]·t_j`. -/
theorem C2_mean_rmf_weighted_dispersion (s : IRFStacker) (rmf0 : EnergyDispersion)
    (rest : List EnergyDispersion) (qts : List ℚ) (T R k l : ℕ)
    (h0 : s.list_rmf = rmf0 :: rest)
    (ht : s.list_livetime = qts.map FV.fin)
    (hT : nbinsOf rmf0.e_true = T) (hR : nbinsOf rmf0.e_reco = R)
    (hT0 : 0 < T) (hR0 : 0 < R)
    (hll1 : s.list_rmf.length ≤ s.list_arf.length)
    (hll2 : s.list_rmf.length ≤ qts.length)
    (hll3 : s.list_rmf.length ≤ s.list_low_threshold.length)
    (hll4 : s.list_rmf.length ≤ s.list_high_threshold.length)
    (harf : ∀ a ∈ s.list_arf, a.data.length = T ∧ ∀ x ∈ a.data, x.isFin = true)
    (hrmf : ∀ r ∈ s.list_rmf, r.data.length = T ∧
      ∀ row ∈ r.data, row.length = R ∧ ∀ x ∈ row, x.isFin = true)
    (hk : k < R) (hl : l < T)
    (hden : rmfDenQ s.list_rmf s.list_arf qts l ≠ 0) :
    ∃ d : EnergyDispersion,
      s.mean_rmf = .ok { s with stacked_edisp := some d } ∧
      (d.data.getD l []).getD k (FV.fin 0) =
        FV.fin (rmfNumQ s.list_rmf s.list_arf qts s.list_low_threshold
            s.list_high_threshold k l / rmfDenQ s.list_rmf s.list_arf qts l) := by
  obtain ⟨d, h1, _, _, _, _, hent⟩ :=
    mean_rmf_spec s rmf0 rest qts T R h0 ht hT hR hT0 hR0 hll1 hll2 hll3 hll4 harf hrmf
  refine ⟨d, h1, ?_⟩
  rw [hent l k hl hk, FV.fin_div_fin _ _ hden]
  rfl

/-- Witness for C2 on the two-observation scenario with two dispersion
matrices: entry (k=0, l=0) of the stacked dispersion is
(1·10·1 + 1/2·30·3)/(10·1 + 30·3) = 11/20. -/
theorem C2_mean_rmf_weighted_dispersion_witness :
    ∃ d, sW.mean_rmf = .ok { sW with stacked_edisp := some d } ∧
      (d.data.getD 0 []).getD 0 (FV.fin 0) = FV.fin (11 / 20) := by
  obtain ⟨d, h1, h2⟩ :=
    C2_mean_rmf_weighted_dispersion sW rmfW1 [rmfW2] [1, 3] 2 2 0 0 rfl rfl rfl rfl
      (by decide) (by decide) (by decide) (by decide) (by decide) (by decide)
      (by decide) (by decide) (by decide) (by decide)
      (by norm_num [sW, IRFStacker.init, rmfDenQ, aeffQ, arfW1, arfW2,
        EffectiveAreaTable.evaluate, fill_fin, FV.toQ])
  refine ⟨d, h1, ?_⟩
  rw [h2]
  norm_num [sW, IRFStacker.init, rmfDenQ, rmfNumQ, aeffQ, edispQ, arfW1, arfW2,
    rmfW1, rmfW2, EffectiveAreaTable.evaluate, fill_fin, FV.toQ, safeBin]

theorem FV.add_def (x y : FV) : x + y = FV.add x y := rfl

theorem FV.mul_def (x y : FV) : x * y = FV.mul x y := rfl

theorem FV.div_def (x y : FV) : x / y = FV.div x y := rfl

/-! ### C3: zero-denominator columns of the stacked dispersion -/

def arfC3a : EffectiveAreaTable := ⟨[1, 10], [FV.fin 1]⟩

def arfC3b : EffectiveAreaTable := ⟨[1, 10], [FV.fin (-1)]⟩

def rmfC3a : EnergyDispersion := ⟨[1, 10], [1, 10], [[FV.fin 1]]⟩

def rmfC3b : EnergyDispersion := ⟨[1, 10], [1, 10], [[FV.fin 0]]⟩

def sC3 : IRFStacker :=
  IRFStacker.init [arfC3a, arfC3b] [FV.fin 1, FV.fin 1] [rmfC3a, rmfC3b] [1, 1] [10, 10]

/-- C3 is false as stated: with areas 1 and -1 (equal livetimes 1) the
denominator at the only true-energy bin is 0, yet the stacked dispersion
entry is `DBL_MAX`, not 0 — `np.nan_to_num` turns the `inf` produced by
`1/0` into the largest float, not into 0. -/
theorem C3_counterexample :
    rmfDenQ sC3.list_rmf sC3.list_arf [1, 1] 0 = 0 ∧
    (∃ d, sC3.mean_rmf = .ok { sC3 with stacked_edisp := some d } ∧
      (d.data.getD 0 []).getD 0 (FV.fin 0) = FV.fin npMaxFloat) ∧
    FV.fin npMaxFloat ≠ FV.fin 0 := by
  have hden : rmfDenQ sC3.list_rmf sC3.list_arf [1, 1] 0 = 0 := by
    norm_num [sC3, IRFStacker.init, rmfDenQ, aeffQ, arfC3a, arfC3b,
      EffectiveAreaTable.evaluate, fill_fin, FV.toQ]
  refine ⟨hden, ?_, ?_⟩
  · obtain ⟨d, h1, _, _, _, _, hent⟩ :=
      mean_rmf_spec sC3 rmfC3a [rmfC3b] [1, 1] 1 1 rfl rfl rfl rfl (by decide) (by decide)
        (by decide) (by decide) (by decide) (by decide) (by decide) (by decide)
    refine ⟨d, h1, ?_⟩
    rw [hent 0 0 (by decide) (by decide), hden]
    have hnum : rmfNumQ sC3.list_rmf sC3.list_arf [1, 1] sC3.list_low_threshold
        sC3.list_high_threshold 0 0 = 1 := by
      norm_num [sC3, IRFStacker.init, rmfNumQ, aeffQ, edispQ, arfC3a, arfC3b,
        rmfC3a, rmfC3b, EffectiveAreaTable.evaluate, fill_fin, FV.toQ, safeBin]
    rw [hnum]
    norm_num [FV.div_def, FV.div, FV.nanToNum]
  · intro h
    have h2 : npMaxFloat = 0 := FV.fin.inj h
    norm_num [npMaxFloat] at h2

/-- C3 (amended): with non-negative areas and livetimes — the only regime in
which a zero denominator is reachable without cancellation — a zero
denominator at true bin `l` forces a zero numerator, the division is the
`0/0` NaN, and `np.nan_to_num` stores exactly 0 in the whole column.  (An
`inf` from a nonzero numerator over a zero denominator is turned into
±DBL_MAX, not 0, as the counterexample shows.) -/
theorem C3_amended_zero_denominator_column (s : IRFStacker) (rmf0 : EnergyDispersion)
    (rest : List EnergyDispersion) (qts : List ℚ) (T R k l : ℕ)
    (h0 : s.list_rmf = rmf0 :: rest)
    (ht : s.list_livetime = qts.map FV.fin)
    (hT : nbinsOf rmf0.e_true = T) (hR : nbinsOf rmf0.e_reco = R)
    (hT0 : 0 < T) (hR0 : 0 < R)
    (hll1 : s.list_rmf.length ≤ s.list_arf.length)
    (hll2 : s.list_rmf.length ≤ qts.length)
    (hll3 : s.list_rmf.length ≤ s.list_low_threshold.length)
    (hll4 : s.list_rmf.length ≤ s.list_high_threshold.length)
    (harf : ∀ a ∈ s.list_arf, a.data.length = T ∧ ∀ x ∈ a.data, x.isFin = true)
    (hrmf : ∀ r ∈ s.list_rmf, r.data.length = T ∧
      ∀ row ∈ r.data, row.length = R ∧ ∀ x ∈ row, x.isFin = true)
    (hnnA : ∀ a ∈ s.list_arf, ∀ x ∈ a.data, 0 ≤ x.toQ)
    (hnnT : ∀ t ∈ qts, 0 ≤ t)
    (hk : k < R) (hl : l < T)
    (hden : rmfDenQ s.list_rmf s.list_arf qts l = 0) :
    ∃ d, s.mean_rmf = .ok { s with stacked_edisp := some d } ∧
      (d.data.getD l []).getD k (FV.fin 0) = FV.fin 0 := by
  obtain ⟨d, h1, _, _, _, _, hent⟩ :=
    mean_rmf_spec s rmf0 rest qts T R h0 ht hT hR hT0 hR0 hll1 hll2 hll3 hll4 harf hrmf
  refine ⟨d, h1, ?_⟩
  rw [hent l k hl hk,
    rmfNumQ_eq_zero_of_den_zero k l s.list_rmf s.list_arf qts s.list_low_threshold
      s.list_high_threshold hnnA hnnT hden, hden, FV.fin_div_zero_zero]
  rfl

def arfZ : EffectiveAreaTable := ⟨[1, 10], [FV.fin 0]⟩

def rmfZ : EnergyDispersion := ⟨[1, 10], [1, 10], [[FV.fin 1]]⟩

def sZ : IRFStacker := IRFStacker.init [arfZ] [FV.fin 1] [rmfZ] [1] [10]

/-- Witness for the amended C3: one observation with zero effective area at
its only bin makes the denominator 0, and the stacked dispersion entry there
is exactly `FV.fin 0`. -/
theorem C3_amended_zero_denominator_column_witness :
    ∃ d, sZ.mean_rmf = .ok { sZ with stacked_edisp := some d } ∧
      (d.data.getD 0 []).getD 0 (FV.fin 0) = FV.fin 0 :=
  C3_amended_zero_denominator_column sZ rmfZ [] [1] 1 1 0 0 rfl rfl rfl rfl
    (by decide) (by decide) (by decide) (by decide) (by decide) (by decide)
    (by decide) (by decide) (by decide) (by decide) (by decide) (by decide)
    (by norm_num [sZ, IRFStacker.init, rmfDenQ, aeffQ, arfZ,
      EffectiveAreaTable.evaluate, fill_fin, FV.toQ])

/-! ### C4: what actually happens on inconsistent binnings -/

/-- If some curve's bin count differs from the accumulator length and is not
1 (numpy's stretchable extent), the `stack_aeff` loop fails with the
broadcast `ValueError`. -/
theorem stackLoop_badShape :
    ∀ (arfs : List EffectiveAreaTable) (ts : List FV) (acc : List FV),
      arfs.length ≤ ts.length →
      (∃ a ∈ arfs, a.data.length ≠ acc.length ∧ a.data.length ≠ 1) →
      stackLoop arfs ts acc = .error NpError.valueError
  | [], _, _, _, hbad => by simp at hbad
  | a :: arfs, [], _, hlen, _ => by simp at hlen
  | a :: arfs, t :: ts, acc, hlen, hbad => by
      have hcl : ((a.evaluate true).map (· * t)).length = a.data.length := by
        rw [List.length_map, evaluate_length]
      show (match npAddV acc ((a.evaluate true).map (· * t)) with
            | .ok aefft2 => stackLoop arfs ts aefft2
            | .error e => .error e) = .error NpError.valueError
      by_cases hA : a.data.length = acc.length
      · have h1 : npAddV acc ((a.evaluate true).map (· * t)) =
            .ok (List.zipWith (· + ·) acc ((a.evaluate true).map (· * t))) := by
          simp only [npAddV, hcl, hA, if_pos]
        rw [h1]
        obtain ⟨b, hb, hbbad⟩ := hbad
        rcases List.mem_cons.mp hb with hba | hbtail
        · rw [hba, hA] at hbbad
          exact absurd rfl hbbad.1
        · apply stackLoop_badShape arfs ts _ (Nat.le_of_succ_le_succ hlen)
          refine ⟨b, hbtail, ?_⟩
          rw [List.length_zipWith, hcl, hA, Nat.min_self]
          exact hbbad
      · by_cases hA1 : a.data.length = 1
        · have hA2 : ¬(1 = acc.length) := fun h => hA (hA1.trans h)
          have h1 : npAddV acc ((a.evaluate true).map (· * t)) =
              .ok (acc.map (· + ((a.evaluate true).map (· * t)).getD 0 (FV.fin 0))) := by
            unfold npAddV
            rw [hcl, hA1, if_neg hA2, if_pos rfl]
          rw [h1]
          obtain ⟨b, hb, hbbad⟩ := hbad
          rcases List.mem_cons.mp hb with hba | hbtail
          · rw [hba] at hbbad
            exact absurd hA1 hbbad.2
          · apply stackLoop_badShape arfs ts _ (Nat.le_of_succ_le_succ hlen)
            refine ⟨b, hbtail, ?_⟩
            rw [List.length_map]
            exact hbbad
        · have h1 : npAddV acc ((a.evaluate true).map (· * t)) =
              .error NpError.valueError := by
            simp only [npAddV, hcl, hA, hA1, if_neg, if_false]
          rw [h1]

/-- C4 is false as stated: no binning-consistency check exists.  Two curves
with equal bin counts but different bin edges are stacked without any error
(a result is returned, on the first observation's binning). -/
theorem C4_counterexample :
    arfW1.energy ≠ (EffectiveAreaTable.mk [1, 3, 9] [FV.fin 30, FV.fin 40]).energy ∧
    nbinsOf arfW1.energy =
      nbinsOf (EffectiveAreaTable.mk [1, 3, 9] [FV.fin 30, FV.fin 40]).energy ∧
    ∃ s2, (IRFStacker.init [arfW1, ⟨[1, 3, 9], [FV.fin 30, FV.fin 40]⟩]
      [FV.fin 1, FV.fin 3] [] [] []).stack_aeff = .ok s2 := by
  refine ⟨by decide, by decide, ?_⟩
  obtain ⟨c, h1, _⟩ :=
    stack_aeff_spec (IRFStacker.init [arfW1, ⟨[1, 3, 9], [FV.fin 30, FV.fin 40]⟩]
        [FV.fin 1, FV.fin 3] [] [] []) arfW1 [⟨[1, 3, 9], [FV.fin 30, FV.fin 40]⟩]
      [1, 3] 2 rfl rfl (by decide) rfl (by decide)
  exact ⟨_, h1⟩

/-- C4 (amended): the stacking performs no binning check and no
`ShapeMismatch` error exists.  With bin counts all equal to the first
observation's, `stack_aeff` succeeds regardless of the bin edges; a curve
whose bin count differs from the first's (and is not the numpy-broadcastable
count 1) makes it fail with the generic broadcast `ValueError` instead. -/
theorem C4_amended_no_shape_check (s : IRFStacker) (arf0 : EffectiveAreaTable)
    (rest : List EffectiveAreaTable) (qts : List ℚ) (n : ℕ)
    (h0 : s.list_arf = arf0 :: rest)
    (ht : s.list_livetime = qts.map FV.fin)
    (hlen : s.list_arf.length ≤ qts.length)
    (hn : nbinsOf arf0.energy = n) :
    ((∀ a ∈ s.list_arf, a.data.length = n ∧ ∀ x ∈ a.data, x.isFin = true) →
      ∃ s2, s.stack_aeff = .ok s2) ∧
    ((∃ a ∈ s.list_arf, a.data.length ≠ n ∧ a.data.length ≠ 1) →
      s.stack_aeff = .error NpError.valueError) := by
  constructor
  · intro hdat
    obtain ⟨c, h1, _⟩ := stack_aeff_spec s arf0 rest qts n h0 ht hlen hn hdat
    exact ⟨_, h1⟩
  · intro hbad
    have hloop : stackLoop (arf0 :: rest) s.list_livetime
        (List.replicate (nbinsOf arf0.energy) (FV.fin 0)) = .error NpError.valueError := by
      apply stackLoop_badShape
      · rw [← h0, ht, List.length_map]
        exact hlen
      · rw [List.length_replicate, hn, ← h0]
        exact hbad
    simp only [IRFStacker.stack_aeff, h0, hloop]

def arfC4bad : EffectiveAreaTable := ⟨[1, 2, 4, 8], [FV.fin 1, FV.fin 2, FV.fin 3]⟩

def sC4bad : IRFStacker := IRFStacker.init [arfW1, arfC4bad] [FV.fin 1, FV.fin 3] [] [] []

/-- Witness for the amended C4: a 3-bin curve stacked on a 2-bin first curve
raises the broadcast error, while equal bin counts (first conjunct reuses the
theorem's success branch on `sW`) succeed. -/
theorem C4_amended_no_shape_check_witness :
    sC4bad.stack_aeff = .error NpError.valueError ∧
    ∃ s2, sW.stack_aeff = .ok s2 := by
  constructor
  · exact (C4_amended_no_shape_check sC4bad arfW1 [arfC4bad] [1, 3] 2 rfl rfl
      (by decide) rfl).2 (by decide)
  · exact (C4_amended_no_shape_check sW arfW1 [arfW2] [1, 3] 2 rfl rfl
      (by decide) rfl).1 (by decide)

/-! ### C5: zero total livetime -/

def sC5 : IRFStacker := IRFStacker.init [arfW1] [FV.fin 0] [] [] []

/-- C5 is false as stated: with total livetime 0 no error of any kind is
raised — `stack_aeff` returns a result (whose entries are the `0/0` NaN). -/
theorem C5_counterexample :
    npSum sC5.list_livetime = FV.fin 0 ∧
    ∃ s2, sC5.stack_aeff = .ok s2 := by
  constructor
  · norm_num [sC5, IRFStacker.init, npSum, FV.add_def, FV.add]
  · obtain ⟨c, h1, _⟩ := stack_aeff_spec sC5 arfW1 [] [0] 2 rfl rfl (by decide) rfl (by decide)
    exact ⟨_, h1⟩

/-- C5 (amended): no `DegenerateInput` check exists.  When every livetime is
0 (finite-valued curves, consistent shapes), `stack_aeff` succeeds and every
entry of the stored curve is the NaN produced by the `0/0` division. -/
theorem C5_amended_zero_livetime_nan (s : IRFStacker) (arf0 : EffectiveAreaTable)
    (rest : List EffectiveAreaTable) (n m : ℕ)
    (h0 : s.list_arf = arf0 :: rest)
    (ht : s.list_livetime = List.replicate m (FV.fin 0))
    (hml : s.list_arf.length ≤ m)
    (hn : nbinsOf arf0.energy = n)
    (hdat : ∀ a ∈ s.list_arf, a.data.length = n ∧ ∀ x ∈ a.data, x.isFin = true) :
    ∃ c, s.stack_aeff = .ok { s with stacked_aeff := some c } ∧ c.data.length = n ∧
      ∀ l, l < n → c.data.getD l (FV.fin 0) = FV.nan := by
  have ht2 : s.list_livetime = (List.replicate m (0 : ℚ)).map FV.fin := by
    rw [List.map_replicate]
    exact ht
  obtain ⟨c, h1, _, h3, h4⟩ := stack_aeff_spec s arf0 rest (List.replicate m 0) n h0 ht2
    (by rw [List.length_replicate]; exact hml) hn hdat
  refine ⟨c, h1, h3, fun l hl => ?_⟩
  rw [h4 l hl, aeffNumQ_eq_zero l _ _ (fun t ht0 => List.eq_of_mem_replicate ht0),
    List.sum_replicate, smul_zero]
  exact FV.fin_div_zero_zero

/-- Witness for the amended C5: the single zero-livetime observation yields
a stored curve whose first entry is NaN. -/
theorem C5_amended_zero_livetime_nan_witness :
    ∃ c, sC5.stack_aeff = .ok { sC5 with stacked_aeff := some c } ∧ c.data.length = 2 ∧
      c.data.getD 0 (FV.fin 0) = FV.nan := by
  obtain ⟨c, h1, h3, h4⟩ :=
    C5_amended_zero_livetime_nan sC5 arfW1 [] 2 1 rfl rfl (by decide) rfl (by decide)
  exact ⟨c, h1, h3, h4 0 (by decide)⟩

/-! ### C6: NaN fill-on-read before weighting -/

/-- C6: a NaN entry of an input effective-area curve at bin `l` is replaced
by 0 by the fill-on-read `evaluate(fill_nan=True)` before the livetime
weighting, so the bin contributes the finite 0 — not NaN — to the weighted
sum `aefft` of `stack_aeff`. -/
theorem C6_nan_filled_before_weighting (a : EffectiveAreaTable) (t : ℚ) (l : ℕ)
    (hl : l < a.data.length)
    (hnan : a.data.getD l (FV.fin 0) = FV.nan) :
    (a.evaluate true).getD l (FV.fin 0) = FV.fin 0 ∧
    ((a.evaluate true).map (· * FV.fin t)).getD l (FV.fin 0) = FV.fin 0 := by
  have h1 : (a.evaluate true).getD l (FV.fin 0) = FV.fin 0 := by
    show (a.data.map (fun x => if x = FV.nan then FV.fin 0 else x)).getD l (FV.fin 0) = _
    rw [getD_map_lt _ a.data l hl (FV.fin 0) (FV.fin 0), hnan, if_pos rfl]
  refine ⟨h1, ?_⟩
  rw [getD_map_lt (· * FV.fin t) (a.evaluate true) l
    (by rw [evaluate_length]; exact hl) (FV.fin 0) (FV.fin 0), h1, FV.fin_mul_fin, zero_mul]

def arfNaN : EffectiveAreaTable := ⟨[1, 2, 4], [FV.nan, FV.fin 20]⟩

/-- Witness for C6: the NaN at bin 0 of a concrete curve contributes
`FV.fin 0` after filling and weighting with livetime 3. -/
theorem C6_nan_filled_before_weighting_witness :
    (arfNaN.evaluate true).getD 0 (FV.fin 0) = FV.fin 0 ∧
    ((arfNaN.evaluate true).map (· * FV.fin 3)).getD 0 (FV.fin 0) = FV.fin 0 :=
  C6_nan_filled_before_weighting arfNaN 3 0 (by decide) (by decide)

/-! ### C7: equal livetimes give the arithmetic mean -/

/-- C7: for a non-empty observation list whose livetimes are all the same
positive value, the stacked effective area at each bin is the arithmetic mean
of the per-observation values at that bin. -/
theorem C7_equal_livetimes_arithmetic_mean (s : IRFStacker) (arf0 : EffectiveAreaTable)
    (rest : List EffectiveAreaTable) (n m : ℕ) (t : ℚ)
    (h0 : s.list_arf = arf0 :: rest)
    (ht : s.list_livetime = List.replicate m (FV.fin t))
    (hm : s.list_arf.length = m)
    (htpos : 0 < t)
    (hn : nbinsOf arf0.energy = n)
    (hdat : ∀ a ∈ s.list_arf, a.data.length = n ∧ ∀ x ∈ a.data, x.isFin = true) :
    ∃ c, s.stack_aeff = .ok { s with stacked_aeff := some c } ∧
      c.energy = arf0.energy ∧ c.data.length = n ∧
      ∀ l, l < n → c.data.getD l (FV.fin 0) =
        FV.fin ((s.list_arf.map (fun a => aeffQ a l)).sum / m) := by
  have ht2 : s.list_livetime = (List.replicate m t).map FV.fin := by
    rw [List.map_replicate]
    exact ht
  have hm0 : 0 < m := by
    rw [← hm, h0]
    simp
  have hmq : ((m : ℚ)) ≠ 0 := Nat.cast_ne_zero.mpr (Nat.pos_iff_ne_zero.mp hm0)
  have hmne : ((m : ℚ)) * t ≠ 0 := mul_ne_zero hmq (ne_of_gt htpos)
  obtain ⟨c, h1, h2, h3, h4⟩ := stack_aeff_spec s arf0 rest (List.replicate m t) n h0 ht2
    (by rw [List.length_replicate, hm]) hn hdat
  refine ⟨c, h1, h2, h3, fun l hl => ?_⟩
  rw [h4 l hl, aeffNumQ_replicate t l s.list_arf m hm, List.sum_replicate]
  have hsm : (m • t) = (m : ℚ) * t := by simp [nsmul_eq_mul]
  rw [hsm, FV.fin_div_fin _ _ hmne]
  congr 1
  rw [mul_comm ((s.list_arf.map fun a => aeffQ a l).sum) t, mul_comm ((m : ℚ)) t,
    mul_div_mul_left _ _ (ne_of_gt htpos)]

def sEq : IRFStacker := IRFStacker.init [arfW1, arfW2] [FV.fin 2, FV.fin 2] [] [] []

/-- Witness for C7: with equal livetimes 2 the stacked area at bin 0 is the
plain mean (10 + 30)/2 = 20. -/
theorem C7_equal_livetimes_arithmetic_mean_witness :
    ∃ c, sEq.stack_aeff = .ok { sEq with stacked_aeff := some c } ∧
      c.data.getD 0 (FV.fin 0) = FV.fin 20 := by
  obtain ⟨c, h1, _, _, h4⟩ := C7_equal_livetimes_arithmetic_mean sEq arfW1 [arfW2] 2 2 2
    rfl rfl (by decide) (by norm_num) rfl (by decide)
  refine ⟨c, h1, ?_⟩
  rw [h4 0 (by decide)]
  norm_num [sEq, IRFStacker.init, arfW1, arfW2, aeffQ, EffectiveAreaTable.evaluate,
    fill_fin, FV.toQ]

/-! ### C8: single-observation stacking -/

theorem EffectiveAreaTable.eq_of_energy_data {a b : EffectiveAreaTable}
    (h1 : a.energy = b.energy) (h2 : a.data = b.data) : a = b := by
  cases a
  cases b
  simp_all

theorem EnergyDispersion.eq_of_axes_data {a b : EnergyDispersion}
    (h1 : a.e_true = b.e_true) (h2 : a.e_reco = b.e_reco) (h3 : a.data = b.data) : a = b := by
  cases a
  cases b
  simp_all

/-- C8 is false as stated: a single observation whose effective area is 0 at
a true-energy bin (thresholds covering the full reconstructed range) does not
come back unchanged — the `0/0` of the dispersion stack zeroes that column,
so the stored dispersion differs from the input's. -/
theorem C8_counterexample :
    safeBin rmfZ.e_reco 1 10 0 = true ∧
    ∃ d, sZ.mean_rmf = .ok { sZ with stacked_edisp := some d } ∧
      (d.data.getD 0 []).getD 0 (FV.fin 0) = FV.fin 0 ∧
      (rmfZ.data.getD 0 []).getD 0 (FV.fin 0) = FV.fin 1 ∧
      d.data ≠ rmfZ.data := by
  refine ⟨by decide, ?_⟩
  obtain ⟨d, h1, _, _, _, _, hent⟩ :=
    mean_rmf_spec sZ rmfZ [] [1] 1 1 rfl rfl rfl rfl (by decide) (by decide) (by decide)
      (by decide) (by decide) (by decide) (by decide) (by decide)
  have hd0 : (d.data.getD 0 []).getD 0 (FV.fin 0) = FV.fin 0 := by
    rw [hent 0 0 (by decide) (by decide)]
    have hnum : rmfNumQ sZ.list_rmf sZ.list_arf [1] sZ.list_low_threshold
        sZ.list_high_threshold 0 0 = 0 := by
      norm_num [sZ, IRFStacker.init, rmfNumQ, aeffQ, edispQ, arfZ, rmfZ,
        EffectiveAreaTable.evaluate, fill_fin, FV.toQ, safeBin]
    have hden : rmfDenQ sZ.list_rmf sZ.list_arf [1] 0 = 0 := by
      norm_num [sZ, IRFStacker.init, rmfDenQ, aeffQ, arfZ,
        EffectiveAreaTable.evaluate, fill_fin, FV.toQ]
    rw [hnum, hden, FV.fin_div_zero_zero]
    rfl
  refine ⟨d, h1, hd0, by decide, ?_⟩
  intro heq
  rw [heq] at hd0
  have h2 : (rmfZ.data.getD 0 []).getD 0 (FV.fin 0) = FV.fin 1 := by decide
  rw [h2] at hd0
  exact absurd (FV.fin.inj hd0) (by norm_num)

/-- C8 (amended): stacking a single observation returns its effective-area
curve and dispersion matrix unchanged, provided additionally that the
livetime is finite and nonzero and the effective area is finite and nonzero
at every bin (otherwise the dispersion column of a zero/NaN-area bin is
zeroed, as the counterexample shows); the thresholds must cover the full
reconstructed range, as the claim already requires. -/
theorem C8_amended_single_observation_identity (s : IRFStacker)
    (arf : EffectiveAreaTable) (rmf : EnergyDispersion) (t lo hi : ℚ) (T R : ℕ)
    (ha : s.list_arf = [arf])
    (hr : s.list_rmf = [rmf])
    (ht : s.list_livetime = [FV.fin t])
    (hlo : s.list_low_threshold = [lo])
    (hhi : s.list_high_threshold = [hi])
    (htne : t ≠ 0)
    (hn : nbinsOf arf.energy = T)
    (hT : nbinsOf rmf.e_true = T) (hR : nbinsOf rmf.e_reco = R)
    (hT0 : 0 < T) (hR0 : 0 < R)
    (hadata : arf.data.length = T)
    (hafin : ∀ x ∈ arf.data, x.isFin = true)
    (hanz : ∀ x ∈ arf.data, x.toQ ≠ 0)
    (hrdata : rmf.data.length = T)
    (hrow : ∀ row ∈ rmf.data, row.length = R ∧ ∀ x ∈ row, x.isFin = true)
    (hsafe : ∀ k, k < R → safeBin rmf.e_reco lo hi k = true) :
    (∃ s2, s.stack_aeff = .ok s2 ∧ s2.stacked_aeff = some arf) ∧
    (∃ s3, s.mean_rmf = .ok s3 ∧ s3.stacked_edisp = some rmf) := by
  have hdat : ∀ a ∈ s.list_arf, a.data.length = T ∧ ∀ x ∈ a.data, x.isFin = true := by
    rw [ha]
    intro a hmem
    rw [List.mem_singleton.mp hmem]
    exact ⟨hadata, hafin⟩
  have hdata_of : ∀ l, l < T → arf.data.getD l (FV.fin 0) = FV.fin (aeffQ arf l) := by
    intro l hl
    have hmem : arf.data.getD l (FV.fin 0) ∈ arf.data := by
      rw [List.getD_eq_getElem _ _ (by rw [hadata]; exact hl)]
      exact List.getElem_mem _
    have haq : aeffQ arf l = (arf.data.getD l (FV.fin 0)).toQ := by
      rw [aeffQ, evaluate_eq_data_of_fin hafin]
    rw [haq, FV.isFin_toQ (hafin _ hmem)]
  have hAne : ∀ l, l < T → aeffQ arf l ≠ 0 := by
    intro l hl
    have haq : aeffQ arf l = (arf.data.getD l (FV.fin 0)).toQ := by
      rw [aeffQ, evaluate_eq_data_of_fin hafin]
    rw [haq]
    apply hanz
    rw [List.getD_eq_getElem _ _ (by rw [hadata]; exact hl)]
    exact List.getElem_mem _
  constructor
  · obtain ⟨c, h1, h2, h3, h4⟩ := stack_aeff_spec s arf [] [t] T ha (by rw [ht]; rfl)
      (by rw [ha]; exact Nat.le.refl) hn hdat
    have hcdata : c.data = arf.data := by
      apply getD_ext (FV.fin 0) _ _ (by rw [h3, hadata])
      intro l hl
      rw [h3] at hl
      rw [h4 l hl]
      have hsum1 : ([t] : List ℚ).sum = t := by simp
      have hnum1 : aeffNumQ s.list_arf [t] l = aeffQ arf l * t := by
        rw [ha]
        show aeffQ arf l * t + aeffNumQ [] [] l = _
        rw [show aeffNumQ [] [] l = (0 : ℚ) from rfl, add_zero]
      rw [hnum1, hsum1, FV.fin_div_fin _ _ htne, mul_div_cancel_right₀ _ htne, hdata_of l hl]
    have hc : c = arf := EffectiveAreaTable.eq_of_energy_data h2 hcdata
    rw [hc] at h1
    exact ⟨_, h1, rfl⟩
  · obtain ⟨d, g1, g2a, g2b, g3, g4, gent⟩ := mean_rmf_spec s rmf [] [t] T R hr
      (by rw [ht]; rfl) hT hR hT0 hR0 (by rw [hr, ha]; exact Nat.le.refl) (by rw [hr]; exact Nat.le.refl)
      (by rw [hr, hlo]; exact Nat.le.refl) (by rw [hr, hhi]; exact Nat.le.refl) hdat
      (by rw [hr]; intro r hmem; rw [List.mem_singleton.mp hmem]; exact ⟨hrdata, hrow⟩)
    have hden1 : ∀ l, rmfDenQ s.list_rmf s.list_arf [t] l = aeffQ arf l * t := by
      intro l
      rw [hr, ha]
      show aeffQ arf l * t + rmfDenQ [] [] [] l = _
      rw [show rmfDenQ [] [] [] l = (0 : ℚ) from rfl, add_zero]
    have hnum1 : ∀ k l, k < R → rmfNumQ s.list_rmf s.list_arf [t] s.list_low_threshold
        s.list_high_threshold k l = edispQ rmf l k * aeffQ arf l * t := by
      intro k l hk
      rw [hr, ha, hlo, hhi]
      show (if safeBin rmf.e_reco lo hi k then edispQ rmf l k else 0) * aeffQ arf l * t
        + rmfNumQ [] [] [] [] [] k l = _
      rw [if_pos (hsafe k hk), show rmfNumQ [] [] [] [] [] k l = (0 : ℚ) from rfl, add_zero]
    have hddata : d.data = rmf.data := by
      apply getD_ext ([] : List FV) _ _ (by rw [g3, hrdata])
      intro l hl
      rw [g3] at hl
      have hrowmem : rmf.data.getD l [] ∈ rmf.data := by
        rw [List.getD_eq_getElem _ _ (by rw [hrdata]; exact hl)]
        exact List.getElem_mem _
      have e1 : (d.data.getD l []).length = R := rows_getD_length g4 (by rw [g3]; exact hl)
      have e2 : (rmf.data.getD l []).length = R :=
        rows_getD_length (fun r2 hr2 => (hrow r2 hr2).1) (by rw [hrdata]; exact hl)
      apply getD_ext (FV.fin 0)
      · rw [e1, e2]
      · intro k hk
        rw [e1] at hk
        rw [gent l k hl hk, hnum1 k l hk, hden1 l]
        have hAt : aeffQ arf l * t ≠ 0 := mul_ne_zero (hAne l hl) htne
        rw [FV.fin_div_fin _ _ hAt, mul_assoc, mul_div_cancel_right₀ _ hAt]
        have hkx : k < (rmf.data.getD l []).length := by
          rw [(hrow _ hrowmem).1]
          exact hk
        have hx : (rmf.data.getD l []).getD k (FV.fin 0) ∈ rmf.data.getD l [] := by
          rw [List.getD_eq_getElem (rmf.data.getD l []) (FV.fin 0) hkx]
          exact List.getElem_mem _
        have hf := (hrow _ hrowmem).2 _ hx
        show FV.nanToNum (FV.fin (edispQ rmf l k)) = _
        rw [show FV.nanToNum (FV.fin (edispQ rmf l k)) = FV.fin (edispQ rmf l k) from rfl,
          edispQ, FV.isFin_toQ hf]
    have hd : d = rmf := EnergyDispersion.eq_of_axes_data g2a g2b hddata
    rw [hd] at g1
    exact ⟨_, g1, rfl⟩

def arfI : EffectiveAreaTable := ⟨[1, 10], [FV.fin 2]⟩

def sI : IRFStacker := IRFStacker.init [arfI] [FV.fin 1] [rmfZ] [1] [10]

/-- Witness for the amended C8: a single observation with nonzero area 2 and
livetime 1, thresholds covering the full range, comes back unchanged from
both stacking operations. -/
theorem C8_amended_single_observation_identity_witness :
    (∃ s2, sI.stack_aeff = .ok s2 ∧ s2.stacked_aeff = some arfI) ∧
    (∃ s3, sI.mean_rmf = .ok s3 ∧ s3.stacked_edisp = some rmfZ) :=
  C8_amended_single_observation_identity sI arfI rmfZ 1 1 10 1 1 rfl rfl rfl rfl rfl
    (by norm_num) rfl rfl rfl (by decide) (by decide) (by decide) (by decide)
    (by decide) (by decide) (by decide) (by decide)

/-! ### C9: frame effects -/

/-- C9: on success neither stacking method modifies the instance's input
lists; `stack_aeff` writes only `stacked_aeff`, leaving `stacked_edisp`
unchanged, and `mean_rmf` writes only `stacked_edisp`, leaving
`stacked_aeff` unchanged. -/
theorem C9_frame_effects (s s2 s3 : IRFStacker) :
    (s.stack_aeff = .ok s2 →
      s2.list_arf = s.list_arf ∧ s2.list_livetime = s.list_livetime ∧
      s2.list_rmf = s.list_rmf ∧ s2.list_low_threshold = s.list_low_threshold ∧
      s2.list_high_threshold = s.list_high_threshold ∧
      s2.stacked_edisp = s.stacked_edisp) ∧
    (s.mean_rmf = .ok s3 →
      s3.list_arf = s.list_arf ∧ s3.list_livetime = s.list_livetime ∧
      s3.list_rmf = s.list_rmf ∧ s3.list_low_threshold = s.list_low_threshold ∧
      s3.list_high_threshold = s.list_high_threshold ∧
      s3.stacked_aeff = s.stacked_aeff) := by
  constructor
  · intro h
    obtain ⟨c, rfl⟩ := stack_aeff_frame s s2 h
    exact ⟨rfl, rfl, rfl, rfl, rfl, rfl⟩
  · intro h
    obtain ⟨d, rfl⟩ := mean_rmf_frame s s3 h
    exact ⟨rfl, rfl, rfl, rfl, rfl, rfl⟩

/-- Witness for C9 on a concrete single-observation stacker: both methods
succeed and preserve all inputs and the other result attribute. -/
theorem C9_frame_effects_witness :
    (∃ s2, sI.stack_aeff = .ok s2 ∧ s2.list_arf = sI.list_arf ∧
      s2.list_livetime = sI.list_livetime ∧ s2.list_rmf = sI.list_rmf ∧
      s2.list_low_threshold = sI.list_low_threshold ∧
      s2.list_high_threshold = sI.list_high_threshold ∧
      s2.stacked_edisp = sI.stacked_edisp) ∧
    (∃ s3, sI.mean_rmf = .ok s3 ∧ s3.list_arf = sI.list_arf ∧
      s3.list_livetime = sI.list_livetime ∧ s3.list_rmf = sI.list_rmf ∧
      s3.list_low_threshold = sI.list_low_threshold ∧
      s3.list_high_threshold = sI.list_high_threshold ∧
      s3.stacked_aeff = sI.stacked_aeff) := by
  constructor
  · obtain ⟨c, h1, _⟩ := stack_aeff_spec sI arfI [] [1] 1 rfl rfl (by decide) rfl (by decide)
    exact ⟨_, h1, (C9_frame_effects sI _ sI).1 h1⟩
  · obtain ⟨d, h1, _⟩ := mean_rmf_spec sI rmfZ [] [1] 1 1 rfl rfl rfl rfl (by decide)
      (by decide) (by decide) (by decide) (by decide) (by decide) (by decide) (by decide)
    exact ⟨_, h1, (C9_frame_effects sI sI _).2 h1⟩

/-! ### C10: non-negativity of the stacked outputs -/

/-- C10 is false as stated: with all inputs non-negative but total livetime
0, the stacked effective-area entries are NaN, which is not non-negative. -/
theorem C10_counterexample :
    (∀ a ∈ sC5.list_arf, ∀ x ∈ a.data, 0 ≤ x.toQ) ∧
    (∀ x ∈ sC5.list_livetime, x.isNonneg = true) ∧
    ∃ c, sC5.stack_aeff = .ok { sC5 with stacked_aeff := some c } ∧
      c.data.getD 0 (FV.fin 0) = FV.nan ∧ FV.nan.isNonneg = false := by
  refine ⟨by decide, by decide, ?_⟩
  obtain ⟨c, h1, _, _, h4⟩ := stack_aeff_spec sC5 arfW1 [] [0] 2 rfl rfl (by decide) rfl
    (by decide)
  refine ⟨c, h1, ?_, rfl⟩
  rw [h4 0 (by decide), aeffNumQ_eq_zero 0 _ _ (by decide),
    show List.sum [(0 : ℚ)] = 0 by norm_num, FV.fin_div_zero_zero]

/-- C10 (amended): with all areas, livetimes and dispersion entries
non-negative and finite, consistent shapes, and positive total livetime,
every entry of both stacked outputs is non-negative.  (With zero total
livetime the effective-area entries are the `0/0` NaN, which is not
non-negative, as the counterexample shows.) -/
theorem C10_amended_nonnegative_outputs (s : IRFStacker) (arf0 : EffectiveAreaTable)
    (resta : List EffectiveAreaTable) (rmf0 : EnergyDispersion)
    (restr : List EnergyDispersion) (qts : List ℚ) (T R : ℕ)
    (h0a : s.list_arf = arf0 :: resta)
    (h0r : s.list_rmf = rmf0 :: restr)
    (ht : s.list_livetime = qts.map FV.fin)
    (hlen : s.list_arf.length ≤ qts.length)
    (hna : nbinsOf arf0.energy = T)
    (hT : nbinsOf rmf0.e_true = T) (hR : nbinsOf rmf0.e_reco = R)
    (hT0 : 0 < T) (hR0 : 0 < R)
    (hll1 : s.list_rmf.length ≤ s.list_arf.length)
    (hll2 : s.list_rmf.length ≤ qts.length)
    (hll3 : s.list_rmf.length ≤ s.list_low_threshold.length)
    (hll4 : s.list_rmf.length ≤ s.list_high_threshold.length)
    (harf : ∀ a ∈ s.list_arf, a.data.length = T ∧ ∀ x ∈ a.data, x.isFin = true)
    (hrmf : ∀ r ∈ s.list_rmf, r.data.length = T ∧
      ∀ row ∈ r.data, row.length = R ∧ ∀ x ∈ row, x.isFin = true)
    (hnnA : ∀ a ∈ s.list_arf, ∀ x ∈ a.data, 0 ≤ x.toQ)
    (hnnR : ∀ r ∈ s.list_rmf, ∀ row ∈ r.data, ∀ x ∈ row, 0 ≤ x.toQ)
    (hnnT : ∀ t ∈ qts, 0 ≤ t)
    (hsum : 0 < qts.sum) :
    (∃ c, s.stack_aeff = .ok { s with stacked_aeff := some c } ∧
      ∀ l, l < c.data.length → (c.data.getD l (FV.fin 0)).isNonneg = true) ∧
    (∃ d, s.mean_rmf = .ok { s with stacked_edisp := some d } ∧
      ∀ l k, l < d.data.length → k < (d.data.getD l []).length →
        ((d.data.getD l []).getD k (FV.fin 0)).isNonneg = true) := by
  constructor
  · obtain ⟨c, h1, _, h3, h4⟩ := stack_aeff_spec s arf0 resta qts T h0a ht hlen hna harf
    refine ⟨c, h1, fun l hl => ?_⟩
    rw [h3] at hl
    rw [h4 l hl, FV.fin_div_fin _ _ (ne_of_gt hsum)]
    show decide (0 ≤ aeffNumQ s.list_arf qts l / qts.sum) = true
    rw [decide_eq_true_eq]
    exact div_nonneg (aeffNumQ_nonneg l _ _ hnnA hnnT) (le_of_lt hsum)
  · obtain ⟨d, g1, _, _, g3, g4, gent⟩ :=
      mean_rmf_spec s rmf0 restr qts T R h0r ht hT hR hT0 hR0 hll1 hll2 hll3 hll4 harf hrmf
    refine ⟨d, g1, fun l k hl hk => ?_⟩
    rw [g3] at hl
    rw [rows_getD_length g4 (by rw [g3]; exact hl)] at hk
    rw [gent l k hl hk]
    by_cases hden : rmfDenQ s.list_rmf s.list_arf qts l = 0
    · rw [rmfNumQ_eq_zero_of_den_zero k l _ _ _ _ _ hnnA hnnT hden, hden,
        FV.fin_div_zero_zero]
      decide
    · rw [FV.fin_div_fin _ _ hden]
      show decide (0 ≤ rmfNumQ s.list_rmf s.list_arf qts s.list_low_threshold
        s.list_high_threshold k l / rmfDenQ s.list_rmf s.list_arf qts l) = true
      rw [decide_eq_true_eq]
      exact div_nonneg (rmfNumQ_nonneg k l _ _ _ _ _ hnnR hnnA hnnT)
        (rmfDenQ_nonneg l _ _ _ hnnA hnnT)

/-- Witness for the amended C10: on the two-observation scenario all entries
of both stacked outputs are non-negative. -/
theorem C10_amended_nonnegative_outputs_witness :
    (∃ c, sW.stack_aeff = .ok { sW with stacked_aeff := some c } ∧
      ∀ l, l < c.data.length → (c.data.getD l (FV.fin 0)).isNonneg = true) ∧
    (∃ d, sW.mean_rmf = .ok { sW with stacked_edisp := some d } ∧
      ∀ l k, l < d.data.length → k < (d.data.getD l []).length →
        ((d.data.getD l []).getD k (FV.fin 0)).isNonneg = true) :=
  C10_amended_nonnegative_outputs sW arfW1 [arfW2] rmfW1 [rmfW2] [1, 3] 2 2
    rfl rfl rfl (by decide) rfl rfl rfl (by decide) (by decide) (by decide) (by decide)
    (by decide) (by decide) (by decide) (by decide)
    (by norm_num [sW, IRFStacker.init, arfW1, arfW2, FV.toQ])
    (by norm_num [sW, IRFStacker.init, rmfW1, rmfW2, FV.toQ])
    (by norm_num) (by norm_num)
